import Mathlib

/-!
Verification development for the `contentful-to-algolia` repository.

The file shallowly embeds the two cores of the codebase:

* the Algolia index reconciler (`src` file holding `class Algolia`:
  `indexData`, `getEntryKey`, `getElementsPromise`, `indexObjects`,
  `addObjects`, `updateObjects`, `deleteObjects`), and
* the Contentful locale flattener (`src/lib/Contentful.js`:
  `getEntriesPaged`, `_getLocalizedEntries`, `_getLocalForNestedFields`,
  `_cleanMore`, `_cleanLocales`, `_cleanEntry`, `_mergeFields`,
  `_getFieldEntry`, `_getFields`, `_getFieldsForLocale`,
  `_getLocaleString`), plus the orchestration/error paths of
  `Sync.syncSingle` / `Sync.singleCallback`.

Modelling conventions:

* JavaScript asynchronous results are modelled as `Except`/pure values;
  a promise that has had `.catch(console.error)` attached is modelled by
  an `Outcome` that records that it resolves (possibly with `undefined`).
* Documents flowing through the reconciler are flat JSON-ish objects;
  they are modelled as a structure with the fields the code reads
  (`id`, `locale`, `contentType`, `objectID`) plus an association list
  for all remaining top-level fields, whose values may be `undefined`
  (`_.omitBy(_, _.isUndefined)` and `_.isEqual` distinguish a key that
  is present with value `undefined` from an absent key).
* `getEntryKey` feeds `entry.id` and `entry.locale` into one running
  sha256 digest; two entries collide exactly when the concatenations
  `id ++ locale` coincide (sha256 being injective for all practical
  purposes), so the key is modelled as that concatenation.
* In-place mutation (`entriesIndex[key].objectID = hit.objectID`
  mutating the `data` array's own elements) is modelled by threading the
  document-list state; `updated` stores the matched keys and is
  materialised from the final state, mirroring the fact that the JS
  array holds references into the mutated `data` objects.
-/

set_option maxHeartbeats 1000000

namespace C2A

/-- A primitive JavaScript value as it appears in a flat document field.
`undefined` is JavaScript `undefined` stored under a present key. -/
inductive JSVal where
  | str (s : String)
  | num (n : Int)
  | boolean (b : Bool)
  | nullv
  | undefined
deriving DecidableEq, Repr

/-- A flat document (entry or index hit) as consumed by the Algolia class:
the fields the reconciler reads are explicit, every other top-level field
sits in the `fields` association list. `objectID = none` models an object
without an `objectID` key. -/
structure Doc where
  id : String
  locale : String
  contentType : String
  objectID : Option String
  fields : List (String × JSVal)
deriving DecidableEq, Repr

/-- JavaScript truthiness of an optional string property
(absent and the empty string are falsy). -/
def jsTruthyStr : Option String → Bool
  | none => false
  | some s => s ≠ ""

/-- `Algolia.getEntryKey`: the sha256 digest of `entry.id` followed by
`entry.locale` fed into one hash; modelled by the concatenated input,
which determines the digest. -/
def getEntryKey (d : Doc) : String :=
  d.id ++ d.locale

/-- First value stored under key `k` (JavaScript object property read:
objects have unique keys, so the first binding is the binding). -/
def lookupField (fs : List (String × JSVal)) (k : String) : Option JSVal :=
  match fs with
  | [] => none
  | (k', v) :: rest => if k' = k then some v else lookupField rest k

/-- Key list of an object. -/
def fieldKeys (fs : List (String × JSVal)) : List String :=
  fs.map Prod.fst

/-- `_.isEqual` restricted to flat objects: both sides bind the same keys
to the same values (a key bound to `undefined` is present, unlike an
absent key — lodash compares the own-key sets first). -/
def fieldsEqual (a b : List (String × JSVal)) : Bool :=
  (fieldKeys a ++ fieldKeys b).all fun k => lookupField a k == lookupField b k

/-- `_.isEqual(x, y)` on two flat documents. -/
def isEqualDoc (a b : Doc) : Bool :=
  a.id == b.id && a.locale == b.locale && a.contentType == b.contentType
    && a.objectID == b.objectID && fieldsEqual a.fields b.fields

/-- `_.omitBy(entry, _.isUndefined)`: drop the fields whose value is
`undefined` (the explicit properties are never `undefined` for documents
that reach the comparison; `objectID : Option String` models presence). -/
def compactDoc (d : Doc) : Doc :=
  { d with fields := d.fields.filter fun kv => kv.2 ≠ JSVal.undefined }

/-- The equality test `getElementsPromise` applies to decide membership in
`updated`: `_.isEqual(_.omitBy(entriesIndex[key], _.isUndefined), hit)` —
only the entry side is compacted, the hit is compared verbatim. -/
def docEqualUsed (entry hit : Doc) : Bool :=
  isEqualDoc (compactDoc entry) hit

/-- The shape in which a flat document sits in the index once written:
its `undefined`-valued fields dropped (JSON serialisation) and the
index-assigned `objectID` attached. -/
def storedForm (d : Doc) (o : String) : Doc :=
  { compactDoc d with objectID := some o }

/-- A source document after the matching loop copied `objectID := o`
onto it (`entriesIndex[key].objectID = hit.objectID`). -/
def assignedForm (d : Doc) (o : String) : Doc :=
  { d with objectID := some o }

/-- Lookup in `_.keyBy(data, getEntryKey)`: the map is built by iterating
`data` and overwriting, so the last element with the key wins. -/
def keyByGet (ds : List Doc) (k : String) : Option Doc :=
  ds.foldl (fun acc d => if getEntryKey d == k then some d else acc) none

/-- Write `objectID := oid` on the last document carrying key `k`
(the object `_.keyBy` holds a reference to). -/
def assignLast (ds : List Doc) (k : String) (oid : Option String) : List Doc :=
  match ds with
  | [] => []
  | d :: rest =>
      if rest.any (fun x => getEntryKey x == k) then d :: assignLast rest k oid
      else if getEntryKey d == k then { d with objectID := oid } :: rest
      else d :: rest

/-- The `_.each(hits, …)` loop of `getElementsPromise`, threading the
mutated `data` array and accumulating the keys pushed to `updated` and
the ids pushed to `deleted`, in push order. `ctGiven` is the truthiness
of the `contentType` argument guarding the `deleted` branch. -/
def procHits (ds : List Doc) (hits : List Doc) (ctGiven : Bool) :
    List Doc × List String × List (Option String) :=
  match hits with
  | [] => (ds, [], [])
  | h :: hs =>
      let k := getEntryKey h
      match keyByGet ds k with
      | some e =>
          let ds1 := if e.locale == h.locale then assignLast ds k h.objectID else ds
          let e1 := (keyByGet ds1 k).getD e
          let rest := procHits ds1 hs ctGiven
          if docEqualUsed e1 h then rest else (rest.1, k :: rest.2.1, rest.2.2)
      | none =>
          let rest := procHits ds hs ctGiven
          if ctGiven then (rest.1, rest.2.1, h.objectID :: rest.2.2) else rest

/-- Result triple of one diff pass. `updated` holds documents (references
into the mutated `data`), `deleted` holds the pushed `hit.objectID`s. -/
structure DiffResult where
  created : List Doc
  updated : List Doc
  deleted : List (Option String)
deriving DecidableEq, Repr

/-- `Algolia.getElementsPromise(data, contentType)` applied to a resolved
index snapshot `hits`: filter the snapshot by `contentType` when that
argument is truthy, run the matching loop, then take
`created = _.filter(data, entry => !entry.objectID)` over the mutated
`data` and materialise `updated` from the final state of the mutated
objects the pushed references point at. -/
def getElementsPromise (data hits : List Doc) (contentType : Option String) :
    DiffResult :=
  let hitsF := if jsTruthyStr contentType
    then hits.filter (fun h => h.contentType == contentType.getD "")
    else hits
  let res := procHits data hitsF (jsTruthyStr contentType)
  { created := res.1.filter fun d => !(jsTruthyStr d.objectID)
    updated := res.2.1.filterMap fun k => keyByGet res.1 k
    deleted := res.2.2 }

/-- The three argument lists `indexData` hands to
`indexObjects(entries.created, entries.updated, deletedEntries)`:
`deletedEntries` is `entries.deleted`, overwritten with `[]` when
`isSingle` is true. -/
structure BatchArgs where
  addArgs : List Doc
  updateArgs : List Doc
  deleteArgs : List (Option String)
deriving DecidableEq, Repr

/-- The batch-call arguments produced by `Algolia.indexData(data,
contentType, isSingle)` once `getElementsPromise` resolved against the
snapshot `hits`. -/
def indexDataCalls (data hits : List Doc) (contentType : Option String)
    (isSingle : Bool) : BatchArgs :=
  let entries := getElementsPromise data hits contentType
  { addArgs := entries.created
    updateArgs := entries.updated
    deleteArgs := if isSingle then [] else entries.deleted }

/-! ### Promise outcomes and the error path

`Algolia.indexData` ends in `.catch(console.error)`, and both
`Sync.syncSingle` and `Sync.singleCallback` attach their own
`.catch(console.error)`.  A promise with such a handler resolves (with
`undefined`, modelled as `none`) even when an inner operation failed.
Collaborator calls (index full scan, batch writes) are modelled as
`Except String _` values/functions supplied by the environment. -/

/-- The observable outcome of a JavaScript promise: resolved with a value
(`none` standing for `undefined`) or rejected. -/
inductive Outcome (α : Type) where
  | resolved (v : Option α)
  | rejected (e : String)
deriving DecidableEq, Repr

/-- Whether a promise outcome is a resolution (not a rejection). -/
def Outcome.isResolved {α : Type} : Outcome α → Bool
  | .resolved _ => true
  | .rejected _ => false

/-- `Algolia.addObjects`: returns `{objectIDs: []}` without any network
call when the list is empty, otherwise performs the batch write. -/
def addObjectsCall (net : List Doc → Except String (List String))
    (objs : List Doc) : Except String (List String) :=
  if objs.length = 0 then .ok [] else net objs

/-- `Algolia.updateObjects` (batch `saveObjects`), empty list short-circuited. -/
def updateObjectsCall (net : List Doc → Except String (List String))
    (objs : List Doc) : Except String (List String) :=
  if objs.length = 0 then .ok [] else net objs

/-- `Algolia.deleteObjects` (batch `deleteObjects`), empty list short-circuited. -/
def deleteObjectsCall (net : List (Option String) → Except String (List String))
    (ids : List (Option String)) : Except String (List String) :=
  if ids.length = 0 then .ok [] else net ids

/-- `Algolia.indexObjects`: run the three batch calls and concatenate the
returned identifier lists (`getMergedObjects`); any failing batch rejects
the whole `Promise.all`. -/
def indexObjectsCall (netAdd netUpd : List Doc → Except String (List String))
    (netDel : List (Option String) → Except String (List String))
    (args : BatchArgs) : Except String (List String) := do
  let a ← addObjectsCall netAdd args.addArgs
  let u ← updateObjectsCall netUpd args.updateArgs
  let d ← deleteObjectsCall netDel args.deleteArgs
  .ok (a ++ u ++ d)

/-- `Algolia.indexData(data, contentType, isSingle)` with the index
full-scan outcome `scan` (the cached `browseAll` promise) and the batch
collaborators: chain diff and writes, then `.catch(console.error)` —
which turns every failure into a resolution with `undefined`. -/
def indexData (scan : Except String (List Doc)) (data : List Doc)
    (contentType : Option String) (isSingle : Bool)
    (netAdd netUpd : List Doc → Except String (List String))
    (netDel : List (Option String) → Except String (List String)) :
    Outcome (List String) :=
  let chain : Except String (List String) := do
    let hits ← scan
    indexObjectsCall netAdd netUpd netDel (indexDataCalls data hits contentType isSingle)
  Outcome.resolved (match chain with
    | .ok v => some v
    | .error _ => none)

/-- `Sync.syncSingle`/`Sync.singleCallback`: fetch from Contentful, hand
the content to `indexData`, log; both stages wear `.catch(console.error)`,
so a fetch failure or an indexing failure still yields a resolution. -/
def syncSingle (fetch : Except String (List Doc))
    (scan : Except String (List Doc)) (contentType : Option String)
    (entryIdGiven : Bool)
    (netAdd netUpd : List Doc → Except String (List String))
    (netDel : List (Option String) → Except String (List String)) :
    Outcome Unit :=
  match fetch with
  | .error _ => .resolved none
  | .ok content =>
      match indexData scan content contentType entryIdGiven netAdd netUpd netDel with
      | .resolved _ => .resolved (some ())
      | .rejected _ => .resolved none

/-! ## The Contentful locale flattener (`src/lib/Contentful.js`)

JavaScript values are modelled by the inductive `CVal`; objects are
association lists in key-insertion order (JS objects have unique keys).
The model is pure: functions return new values where the JS mutates in
place, and `_cleanEntry`, whose in-place mutation of its argument is
itself under verification, returns the pair
(returned `newEntry`, mutated argument).  In-place mutation of *nested
linked records shared between the per-locale iterations* (the
`_cleanEntry(entry, true)` calls inside `_getFieldEntry` delete the
nested record's `sys` in the original graph) is not threaded across
iterations; the properties proved here (document count, top-level
`locale` tag, the cycle-guard behaviour, `_cleanEntry`'s own mutation)
do not depend on it.  Recursions whose JavaScript termination depends on
the data graph being finite take a fuel parameter; every theorem below
holds for every fuel value or supplies ample fuel explicitly. -/

/-- A JavaScript value as handled by the Contentful flattener. -/
inductive CVal where
  | undefined
  | nullv
  | boolean (b : Bool)
  | num (n : Int)
  | str (s : String)
  | obj (fields : List (String × CVal))
  | arr (elems : List CVal)
deriving Repr

/-- JavaScript truthiness. -/
def jsTruthy : CVal → Bool
  | .undefined => false
  | .nullv => false
  | .boolean b => b
  | .num n => n != 0
  | .str s => s != ""
  | .obj _ => true
  | .arr _ => true

/-- Property read on an association-list object, `undefined` when absent. -/
def objGetD (fs : List (String × CVal)) (k : String) : CVal :=
  match fs with
  | [] => .undefined
  | (k', v) :: rest => if k' = k then v else objGetD rest k

/-- Property write: overwrite the existing binding in place, else append
(JS property insertion order). -/
def objSetVal (fs : List (String × CVal)) (k : String) (v : CVal) :
    List (String × CVal) :=
  match fs with
  | [] => [(k, v)]
  | (k', v') :: rest =>
      if k' = k then (k', v) :: rest else (k', v') :: objSetVal rest k v

/-- `delete o[k]` on an association-list object. -/
def objDeleteKey (fs : List (String × CVal)) (k : String) :
    List (String × CVal) :=
  fs.filter fun kv => kv.1 ≠ k

/-- Property read lifted to `CVal` (`undefined` on non-objects, as for
JS property access on primitives; access on `null`/`undefined` would
throw in JS and never happens on the verified paths). -/
def cvalIndex (v : CVal) (k : String) : CVal :=
  match v with
  | .obj fs => objGetD fs k
  | _ => .undefined

/-- Property write lifted to `CVal` (no-op on non-objects). -/
def objSetValC (v : CVal) (k : String) (x : CVal) : CVal :=
  match v with
  | .obj fs => .obj (objSetVal fs k x)
  | other => other

/-- `delete` lifted to `CVal` (no-op on non-objects). -/
def objDeleteC (v : CVal) (k : String) : CVal :=
  match v with
  | .obj fs => .obj (objDeleteKey fs k)
  | other => other

/-- Well-formedness of a JavaScript object value: its key list has no
duplicates (guaranteed for every value deserialized from JSON).
Non-objects are trivially well-formed. -/
def objKeysNodup : CVal → Prop := fun v =>
  match v with
  | .obj fs => (fs.map Prod.fst).Nodup
  | _ => True

mutual

/-- Structural equality on `CVal`, standing in for the reference equality
`_.indexOf` uses on objects (a value model cannot distinguish two
structurally identical heap objects; the claims proved below do not
depend on that distinction). -/
def cvalBeq : CVal → CVal → Bool
  | .undefined, .undefined => true
  | .nullv, .nullv => true
  | .boolean a, .boolean b => a == b
  | .num a, .num b => a == b
  | .str a, .str b => a == b
  | .obj a, .obj b => cvalPairsBeq a b
  | .arr a, .arr b => cvalListBeq a b
  | _, _ => false

/-- Componentwise equality of object field lists. -/
def cvalPairsBeq : List (String × CVal) → List (String × CVal) → Bool
  | [], [] => true
  | (k, v) :: xs, (k2, v2) :: ys => k == k2 && cvalBeq v v2 && cvalPairsBeq xs ys
  | _, _ => false

/-- Componentwise equality of array element lists. -/
def cvalListBeq : List CVal → List CVal → Bool
  | [], [] => true
  | x :: xs, y :: ys => cvalBeq x y && cvalListBeq xs ys
  | _, _ => false

end

/-- `_.indexOf(stack, e)`: index of the first occurrence, `-1` when
absent (the `-1` is what the broken cycle guard treats as truthy). -/
def jsIndexOfFrom (stack : List CVal) (e : CVal) (i : Nat) : Int :=
  match stack with
  | [] => -1
  | x :: xs => if cvalBeq x e then Int.ofNat i else jsIndexOfFrom xs e (i + 1)

/-- `_.indexOf(stack, e)` from index 0. -/
def jsIndexOf (stack : List CVal) (e : CVal) : Int :=
  jsIndexOfFrom stack e 0

mutual

/-- `_.merge(dst, src)` (lodash deep merge): objects merge recursively,
arrays merge index-wise, any other defined source value wins, an
`undefined` source leaves the destination (but creates the key when the
destination object lacks it). -/
def lodashMerge (dst src : CVal) : CVal :=
  match dst, src with
  | d, .undefined => d
  | .obj d, .obj s => .obj (lodashMergePairs d s)
  | .arr d, .arr s => .arr (lodashMergeArr d s)
  | _, s => s

/-- Merge the source bindings into the destination object, in order. -/
def lodashMergePairs (d : List (String × CVal)) :
    List (String × CVal) → List (String × CVal)
  | [] => d
  | (k, v) :: rest =>
      lodashMergePairs (objSetVal d k (lodashMerge (objGetD d k) v)) rest

/-- Index-wise merge of two arrays, keeping the longer tail. -/
def lodashMergeArr : List CVal → List CVal → List CVal
  | d, [] => d
  | [], s => s
  | x :: xs, y :: ys => lodashMerge x y :: lodashMergeArr xs ys

end

/-- `Contentful._mergeFields(entry = {}, fields = {})`:
`merge(entry, fields)` then `delete entry.fields`.  The JS default
parameters replace an `undefined` argument with `{}`. -/
def mergeFields (entry fields : CVal) : CVal :=
  let e := match entry with | .undefined => CVal.obj [] | x => x
  let f := match fields with | .undefined => CVal.obj [] | x => x
  objDeleteC (lodashMerge e f) "fields"

/-- `Contentful._getLocaleString(field, locale)`: walk the locale codes
of the group in order and keep the first *truthy* value
(`if (field[currentLocale] && !localizedField) …`). -/
def getLocaleString (field : CVal) (group : List String) : CVal :=
  group.foldl
    (fun acc c =>
      if jsTruthy (cvalIndex field c) && !(jsTruthy acc) then cvalIndex field c
      else acc)
    .undefined

/-- `Contentful._getFieldsForLocale(fields, locale)`: resolve every field
through `_getLocaleString`, then set `entry.locale = locale[0]` (an empty
group would store `undefined`).  `Object.keys` over a non-object is
modelled as no keys (JS would throw on `undefined`/`null` there). -/
def getFieldsForLocale (fields : CVal) (group : List String) : CVal :=
  let tag : CVal := match group.head? with
    | some c => .str c
    | none => .undefined
  match fields with
  | .obj fs =>
      .obj (objSetVal (fs.map fun kv => (kv.1, getLocaleString kv.2 group)) "locale" tag)
  | _ => .obj (objSetVal [] "locale" tag)

/-- The `contentType` map `_cleanEntry` inserts:
`locales.forEach(l => l.forEach(s => fields.contentType[s] = contentType))`. -/
def ctMap (locales : List (List String)) (ct : CVal) : CVal :=
  .obj (locales.foldl (fun acc g => g.foldl (fun a c => objSetVal a c ct) acc) [])

/-- `Contentful._cleanEntry(entry, full)`.  Returns
(the returned `newEntry`, the caller's argument as mutated in place).
In the non-`full` branch `newEntry` *is* `entry.sys`, so the later
`newEntry.fields = entry.fields` also plants a `fields` key inside the
argument's `sys` envelope, and the `contentType` insertion into
`newEntry.fields` lands in the argument's own `fields` object.
The `typeof newEntry.fields === 'object'` test is modelled as the object
case (in JS it also passes for `null`, which then throws, and for
arrays, which gain a non-index property). -/
def cleanEntry (locales : List (List String)) (entry : CVal) (full : Bool) :
    CVal × CVal :=
  if jsTruthy entry = false then (.obj [("fields", .obj [])], entry)
  else
    let sys := cvalIndex entry "sys"
    let ct : CVal :=
      if jsTruthy sys && jsTruthy (cvalIndex sys "contentType") then
        cvalIndex (cvalIndex (cvalIndex sys "contentType") "sys") "id"
      else .boolean false
    let fields := cvalIndex entry "fields"
    let inject : Bool :=
      match fields with
      | .obj fs => !(jsTruthy (objGetD fs "contentType"))
      | _ => false
    let fields' : CVal :=
      if inject then objSetValC fields "contentType" (ctMap locales ct) else fields
    if jsTruthy sys then
      if full then
        let entry1 := objDeleteC entry "sys"
        (.obj [("fields", fields')],
         if inject then objSetValC entry1 "fields" fields' else entry1)
      else
        let sys1 :=
          objDeleteC (objDeleteC (objDeleteC (objDeleteC sys "space")
            "contentType") "type") "revision"
        let sysF := objSetValC sys1 "fields" fields'
        (sysF,
         if inject then objSetValC (objSetValC entry "sys" sysF) "fields" fields'
         else objSetValC entry "sys" sysF)
    else
      (.obj [("fields", fields')],
       if inject then objSetValC entry "fields" fields' else entry)

/-- The amended frame condition for `_cleanEntry`'s in-place mutation,
written from the (amended) spec's words for the refinement proof: the
record's `sys` envelope loses its `space`, `contentType`, `type` and
`revision` entries and — in the non-full variant, because the returned
envelope aliases it — additionally gains a `fields` entry holding the
record's own fields object; in the full variant the whole `sys` entry is
deleted instead.  The fields object gains a `contentType` entry, keyed
by every configured locale code and valued with the record's
content-type id (or `false` when it has none), when it does not already
carry a truthy one.  Nothing else about the record changes. -/
def specCleanEntryMutation (locales : List (List String)) (entry : CVal)
    (full : Bool) : CVal :=
  let sys := cvalIndex entry "sys"
  let fields := cvalIndex entry "fields"
  let contentTypeTag : CVal :=
    if jsTruthy (cvalIndex sys "contentType") then
      cvalIndex (cvalIndex (cvalIndex sys "contentType") "sys") "id"
    else .boolean false
  let fieldsChanged : Bool :=
    match fields with
    | .obj fs => !(jsTruthy (objGetD fs "contentType"))
    | _ => false
  let fieldsNew : CVal :=
    if fieldsChanged then objSetValC fields "contentType" (ctMap locales contentTypeTag)
    else fields
  if full then
    let base := objDeleteC entry "sys"
    if fieldsChanged then objSetValC base "fields" fieldsNew else base
  else
    let sysNew := objSetValC
      (objDeleteC (objDeleteC (objDeleteC (objDeleteC sys "space") "contentType")
        "type") "revision") "fields" fieldsNew
    let base := objSetValC entry "sys" sysNew
    if fieldsChanged then objSetValC base "fields" fieldsNew else base

/-- `Contentful._cleanLocales(entry, locale)`: every object-valued key
with a truthy `fields` property is replaced by
`_getFieldsForLocale(entry[key].fields, locale)`. -/
def cleanLocales (entry : CVal) (group : List String) : CVal :=
  match entry with
  | .obj fs =>
      .obj (fs.map fun kv =>
        match kv.2 with
        | .obj inner =>
            if jsTruthy (objGetD inner "fields") then
              (kv.1, getFieldsForLocale (objGetD inner "fields") group)
            else kv
        | _ => kv)
  | x => x

/-- `Contentful._cleanMore(entry, locale, cleanStack = [])`.
The guard is the code's own: `if (_.indexOf(cleanStack, entry)) return
entry;` — truthy for `-1` (entry *not* on the stack) and for every
position except `0`, so the body only ever runs when `entry` sits at the
head of `cleanStack`, which no call site ever arranges.  The body (dead
code from the public API) is still modelled: `sys`-bearing children are
cleaned, `elements` arrays localized (with the `delete
entry[key].elements` and the in-place `merge` threaded through the
entry state), other object children recursed into with the entry pushed
on the stack.  `for … in` is modelled over object keys. -/
def cleanMore (locales : List (List String)) (fuel : Nat) (entry : CVal)
    (group : List String) (stack : List CVal) : CVal :=
  if jsIndexOf stack entry ≠ 0 then entry
  else
    match fuel, entry with
    | 0, e => e
    | f + 1, .obj fs =>
        let step := fun (st : List (String × CVal) × List (String × CVal)) (k : String) =>
          let cur := st.1
          let newE := st.2
          let v := objGetD cur k
          match v with
          | .obj vf =>
              if jsTruthy (objGetD vf "sys") then
                (cur, objSetVal newE k (cleanEntry locales (.obj vf) false).1)
              else
                match objGetD vf "elements" with
                | .arr elems =>
                    let mapped := elems.map fun e =>
                      getFieldsForLocale (cvalIndex (cleanEntry locales e true).1 "fields") group
                    let vDel := CVal.obj (objDeleteKey vf "elements")
                    let merged := lodashMerge vDel (.obj [("elements", .arr mapped)])
                    (objSetVal cur k merged, objSetVal newE k merged)
                | _ =>
                    (cur, objSetVal newE k
                      (cleanMore locales f (objGetD cur k) group (stack ++ [.obj cur])))
          | .arr _ =>
              (cur, objSetVal newE k
                (cleanMore locales f (objGetD cur k) group (stack ++ [.obj cur])))
          | .nullv =>
              (cur, objSetVal newE k
                (cleanMore locales f (objGetD cur k) group (stack ++ [.obj cur])))
          | _ => (cur, newE)
        let res := (fs.map Prod.fst).foldl step (fs, [])
        lodashMerge (.obj res.1) (.obj res.2)
    | _ + 1, x => x
termination_by fuel

mutual

/-- `Contentful._getFields(fields, locale)`: fold `_getFieldEntry` over
the keys of `fields` (computed once), threading the object. -/
def getFields (locales : List (List String)) (fuel : Nat) (fields : CVal)
    (group : List String) : CVal :=
  match fuel with
  | 0 => fields
  | f + 1 =>
      match fields with
      | .obj fs => (fs.map Prod.fst).foldl (fun acc k => getFieldEntry locales f acc k group) (.obj fs)
      | x => x
termination_by (fuel, 0)

/-- `Contentful._getFieldEntry(fields, key, locale)`: falsy values are
left alone; an array value has each element that is an `Object`
(object or array) cleaned fully, its fields merged up, recursed through
`_getFields` and resolved by `_getFieldsForLocale`. -/
def getFieldEntry (locales : List (List String)) (fuel : Nat) (fields : CVal)
    (key : String) (group : List String) : CVal :=
  match fields with
  | .obj fs =>
      let v := objGetD fs key
      if jsTruthy v = false then .obj fs
      else
        match v with
        | .arr elems =>
            .obj (objSetVal fs key (.arr (elems.map fun e => transformFieldElem locales fuel e group)))
        | _ => .obj fs
  | x => x
termination_by (fuel, 2)

/-- One array element inside `_getFieldEntry`'s `map`. -/
def transformFieldElem (locales : List (List String)) (fuel : Nat) (e : CVal)
    (group : List String) : CVal :=
  match e with
  | .obj _ =>
      let r := (cleanEntry locales e true).1
      let r := mergeFields r (cvalIndex r "fields")
      let r := getFields locales fuel r group
      getFieldsForLocale r group
  | .arr _ =>
      let r := (cleanEntry locales e true).1
      let r := mergeFields r (cvalIndex r "fields")
      let r := getFields locales fuel r group
      getFieldsForLocale r group
  | x => x
termination_by (fuel, 1)

end

mutual

/-- `Contentful._getLocalForNestedFields(entry, locale)`: every
array-valued key has its items localized in place. -/
def getLocalForNestedFields (locales : List (List String)) (fuel : Nat)
    (entry : CVal) (group : List String) : CVal :=
  match fuel with
  | 0 => entry
  | f + 1 =>
      match entry with
      | .obj fs =>
          .obj (fs.map fun kv =>
            match kv.2 with
            | .arr elems => (kv.1, CVal.arr (elems.map fun item => nestedLocalItem locales f item group))
            | _ => kv)
      | x => x
termination_by (fuel, 0)

/-- One item of an array-valued field inside
`_getLocalForNestedFields`: `_cleanMore` (a no-op thanks to its guard),
`_cleanLocales`, then if the item has truthy `fields` resolve and merge
them, and recurse. -/
def nestedLocalItem (locales : List (List String)) (fuel : Nat) (item : CVal)
    (group : List String) : CVal :=
  let item := cleanMore locales fuel item group []
  let item := cleanLocales item group
  let item :=
    if jsTruthy (cvalIndex item "fields") then
      let fields := cvalIndex item "fields"
      let fields := getFieldsForLocale fields group
      let fields := getFields locales fuel fields group
      objDeleteC (mergeFields item fields) "fields"
    else item
  getLocalForNestedFields locales fuel item group
termination_by (fuel, 1)

end

/-- The per-locale-group body of `_getLocalizedEntries`
(`Object.assign({}, entry)` is a value copy in the pure model). -/
def localizeOne (locales : List (List String)) (fuel : Nat) (entry : CVal)
    (group : List String) : CVal :=
  let fields := cvalIndex entry "fields"
  let fields := getFieldsForLocale fields group
  let fields := getFields locales fuel fields group
  let newEntry := mergeFields entry fields
  let newEntry := objDeleteC newEntry "fields"
  let newEntry := cleanMore locales fuel newEntry group []
  let newEntry := cleanLocales newEntry group
  getLocalForNestedFields locales fuel newEntry group

/-- `Contentful._getLocalizedEntries(entry)`: clean the entry, then one
document per configured locale group; with no configured locales the
single merged entry is returned (that JS branch calls `_cleanEntry`, whose
`this.locales.forEach` would throw when a `contentType` has to be
injected; the model passes an empty locale list there — the branch is
outside every claim). -/
def getLocalizedEntries (localesOpt : Option (List (List String)))
    (fuel : Nat) (entry0 : CVal) : List CVal :=
  match localesOpt with
  | none =>
      let e := (cleanEntry [] entry0 false).1
      [mergeFields e (cvalIndex e "fields")]
  | some locales =>
      let e := (cleanEntry locales entry0 false).1
      locales.map (localizeOne locales fuel e)

/-! ## Paged fetching (`Contentful.getEntriesPaged`)

The Contentful backend is modelled as the full list of matching records:
a request with `skip`/`limit` answers
`{items := (backend.drop skip).take limit, skip := skip,
total := backend.length}`.  `MAX_CONTENTFUL_RESULTS` is 1000 (written as
the literal below). -/

/-- `getEntriesPaged(query, skip, previous)` instrumented with the list
of requested offsets: request a page of at most 1000, append it to the
accumulator, and recurse exactly while `result.skip + 1000 <
result.total`; otherwise resolve with the accumulated entries. -/
def getEntriesPagedTrace {α : Type} (backend : List α) (skip : Nat)
    (previous : List α) : List Nat × List α :=
  let items := (backend.drop skip).take 1000
  let entries := previous ++ items
  if h : skip + 1000 < backend.length then
    let r := getEntriesPagedTrace backend (skip + 1000) entries
    (skip :: r.1, r.2)
  else ([skip], entries)
termination_by backend.length - skip
decreasing_by omega

/-- The entries `getEntriesPaged` resolves with. -/
def getEntriesPaged {α : Type} (backend : List α) (skip : Nat)
    (previous : List α) : List α :=
  (getEntriesPagedTrace backend skip previous).2

/-! ## Lemmas -/

theorem lookupField_beq_self (fs : List (String × JSVal)) (k : String) :
    (lookupField fs k == lookupField fs k) = true := by
  simp

theorem fieldsEqual_refl (fs : List (String × JSVal)) :
    fieldsEqual fs fs = true := by
  unfold fieldsEqual
  rw [List.all_eq_true]
  intro k _
  simp

theorem isEqualDoc_refl (d : Doc) : isEqualDoc d d = true := by
  unfold isEqualDoc
  simp [fieldsEqual_refl]

theorem compactDoc_idem (d : Doc) : compactDoc (compactDoc d) = compactDoc d := by
  unfold compactDoc
  simp [List.filter_filter]

/-- The comparison drops `undefined`-valued fields of the *entry* side
before comparing: compacting the entry first never changes its verdict. -/
theorem docEqualUsed_compact_entry (e h : Doc) :
    docEqualUsed (compactDoc e) h = docEqualUsed e h := by
  unfold docEqualUsed
  rw [compactDoc_idem]

theorem getEntryKey_compact (d : Doc) :
    getEntryKey (compactDoc d) = getEntryKey d := rfl

/-! ### `keyByGet` and `assignLast` lemmas -/

theorem keyByGet_foldl_acc (k : String) (l : List Doc) :
    ∀ acc : Option Doc,
      l.foldl (fun acc d => if getEntryKey d == k then some d else acc) acc =
        match keyByGet l k with
        | some d => some d
        | none => acc := by
  induction l with
  | nil => intro acc; rfl
  | cons d rest ih =>
      intro acc
      rw [List.foldl_cons, ih]
      have hk : keyByGet (d :: rest) k =
          match keyByGet rest k with
          | some x => some x
          | none => if getEntryKey d == k then some d else none := by
        unfold keyByGet
        rw [List.foldl_cons, ih]
        rfl
      rw [hk]
      cases keyByGet rest k <;> by_cases hd : getEntryKey d == k <;> simp [hd]

theorem keyByGet_cons (x : Doc) (rest : List Doc) (k : String) :
    keyByGet (x :: rest) k =
      match keyByGet rest k with
      | some d => some d
      | none => if getEntryKey x == k then some x else none := by
  unfold keyByGet
  rw [List.foldl_cons, keyByGet_foldl_acc]
  rfl

theorem keyByGet_append (l1 l2 : List Doc) (k : String) :
    keyByGet (l1 ++ l2) k =
      match keyByGet l2 k with
      | some d => some d
      | none => keyByGet l1 k := by
  unfold keyByGet
  rw [List.foldl_append, keyByGet_foldl_acc]
  rfl

theorem keyByGet_eq_some (k : String) (l : List Doc) (d : Doc)
    (h : keyByGet l k = some d) : d ∈ l ∧ getEntryKey d = k := by
  induction l with
  | nil => simp [keyByGet] at h
  | cons x rest ih =>
      rw [keyByGet_cons] at h
      cases hr : keyByGet rest k with
      | some y =>
          rw [hr] at h
          have hy := ih (hr.trans (by injection h with h2; rw [h2]))
          refine ⟨List.mem_cons_of_mem x hy.1, hy.2⟩
      | none =>
          rw [hr] at h
          by_cases hx : getEntryKey x == k
          · rw [if_pos hx] at h
            injection h with h2
            subst h2
            exact ⟨List.mem_cons_self _ _, by simpa using hx⟩
          · rw [if_neg hx] at h
            exact absurd h (by simp)

theorem keyByGet_eq_none (l : List Doc) (k : String) :
    keyByGet l k = none ↔ ∀ d ∈ l, getEntryKey d ≠ k := by
  induction l with
  | nil => simp [keyByGet]
  | cons x rest ih =>
      rw [keyByGet_cons]
      cases hr : keyByGet rest k with
      | some y =>
          simp only []
          constructor
          · intro h; exact absurd h (by simp)
          · intro h
            have hy := keyByGet_eq_some k rest y hr
            exact absurd hy.2 (h y (List.mem_cons_of_mem x hy.1))
      | none =>
          simp only []
          constructor
          · intro h
            intro d hd
            rcases List.mem_cons.1 hd with rfl | hd2
            · intro hk
              rw [if_pos (by simpa using hk)] at h
              exact absurd h (by simp)
            · exact (ih.1 hr) d hd2
          · intro h
            rw [if_neg (by simpa using h x (List.mem_cons_self _ _))]

theorem assignLast_map_key (ds : List Doc) (k : String) (o : Option String) :
    (assignLast ds k o).map getEntryKey = ds.map getEntryKey := by
  induction ds with
  | nil => rfl
  | cons d rest ih =>
      rw [assignLast]
      by_cases h1 : rest.any (fun x => getEntryKey x == k)
      · rw [if_pos h1, List.map_cons, List.map_cons, ih]
      · rw [if_neg h1]
        by_cases h2 : getEntryKey d == k
        · rw [if_pos h2]; rfl
        · rw [if_neg h2]

theorem assignLast_no_match (ds : List Doc) (k : String) (o : Option String)
    (h : ∀ x ∈ ds, getEntryKey x ≠ k) : assignLast ds k o = ds := by
  induction ds with
  | nil => rfl
  | cons d rest ih =>
      rw [assignLast]
      have h1 : rest.any (fun x => getEntryKey x == k) = false := by
        rw [List.any_eq_false]
        intro x hx
        simpa using h x (List.mem_cons_of_mem d hx)
      rw [if_neg (by simp [h1]),
        if_neg (by simpa using h d (List.mem_cons_self _ _))]

theorem assignLast_append_right (pre rest : List Doc) (k : String)
    (o : Option String) (hpre : ∀ x ∈ pre, getEntryKey x ≠ k)
    (hrest : rest.any (fun x => getEntryKey x == k) = true) :
    assignLast (pre ++ rest) k o = pre ++ assignLast rest k o := by
  induction pre with
  | nil => rfl
  | cons p ps ih =>
      rw [List.cons_append, assignLast]
      have hany : (ps ++ rest).any (fun x => getEntryKey x == k) = true := by
        rw [List.any_append, hrest, Bool.or_true]
      rw [if_pos hany, ih fun x hx => hpre x (List.mem_cons_of_mem p hx),
        List.cons_append]

theorem keyByGet_assignLast_same (ds : List Doc) (k : String)
    (o : Option String) (e : Doc) (h : keyByGet ds k = some e) :
    keyByGet (assignLast ds k o) k = some { e with objectID := o } := by
  induction ds with
  | nil => simp [keyByGet] at h
  | cons d rest ih =>
      rw [keyByGet_cons] at h
      rw [assignLast]
      by_cases hr : rest.any (fun x => getEntryKey x == k)
      · cases hkr : keyByGet rest k with
        | none =>
            rcases List.any_eq_true.1 hr with ⟨x, hx, hxk⟩
            exact absurd ((keyByGet_eq_none rest k).1 hkr x hx) (by simpa using hxk)
        | some y =>
            rw [hkr] at h
            injection h with h2
            subst h2
            rw [if_pos hr, keyByGet_cons, ih hkr]
      · have hnone : keyByGet rest k = none := by
          rw [keyByGet_eq_none]
          intro x hx hxk
          exact hr (List.any_eq_true.2 ⟨x, hx, by simp [hxk]⟩)
        rw [hnone] at h
        by_cases hd : getEntryKey d == k
        · rw [if_pos hd] at h
          injection h with h2
          subst h2
          rw [if_neg (by simp [hr]), if_pos hd, keyByGet_cons, hnone]
          simpa using hd
        · rw [if_neg hd] at h
          exact absurd h (by simp)

theorem keyByGet_assignLast_ne (ds : List Doc) (k k2 : String)
    (o : Option String) (hne : k2 ≠ k) :
    keyByGet (assignLast ds k o) k2 = keyByGet ds k2 := by
  induction ds with
  | nil => rfl
  | cons d rest ih =>
      rw [assignLast]
      by_cases h1 : rest.any (fun x => getEntryKey x == k)
      · rw [if_pos h1, keyByGet_cons, keyByGet_cons, ih]
      · rw [if_neg h1]
        by_cases h2 : getEntryKey d == k
        · rw [if_pos h2, keyByGet_cons, keyByGet_cons]
          have hkd : getEntryKey d = k := by simpa using h2
          have hf : (getEntryKey d == k2) = false := by
            simp only [beq_eq_false_iff_ne, ne_eq, hkd]
            exact fun hh => hne hh.symm
          cases hres : keyByGet rest k2 with
          | some y => rfl
          | none =>
              rw [show (getEntryKey { d with objectID := o } == k2) = false from hf,
                show (getEntryKey d == k2) = false from hf]
              rfl
        · rw [if_neg h2]

theorem mem_assignLast (ds : List Doc) (k : String) (o : Option String)
    (x : Doc) (hx : x ∈ assignLast ds k o) :
    x ∈ ds ∨ ∃ e ∈ ds, x = { e with objectID := o } := by
  induction ds with
  | nil => simp [assignLast] at hx
  | cons d rest ih =>
      rw [assignLast] at hx
      by_cases h1 : rest.any (fun x => getEntryKey x == k)
      · rw [if_pos h1] at hx
        rcases List.mem_cons.1 hx with rfl | hx2
        · exact Or.inl (List.mem_cons_self _ _)
        · rcases ih hx2 with h | ⟨e, he, rfl⟩
          · exact Or.inl (List.mem_cons_of_mem d h)
          · exact Or.inr ⟨e, List.mem_cons_of_mem d he, rfl⟩
      · rw [if_neg h1] at hx
        by_cases h2 : getEntryKey d == k
        · rw [if_pos h2] at hx
          rcases List.mem_cons.1 hx with rfl | hx2
          · exact Or.inr ⟨d, List.mem_cons_self _ _, rfl⟩
          · exact Or.inl (List.mem_cons_of_mem d hx2)
        · rw [if_neg h2] at hx
          exact Or.inl hx

theorem mem_zipWith_cases {α β γ : Type} (f : α → β → γ) :
    ∀ (l1 : List α) (l2 : List β) (x : γ), x ∈ List.zipWith f l1 l2 →
      ∃ a ∈ l1, ∃ b ∈ l2, x = f a b := by
  intro l1
  induction l1 with
  | nil => intro l2 x hx; simp at hx
  | cons a as ih =>
      intro l2 x hx
      cases l2 with
      | nil => simp at hx
      | cons b bs =>
          rcases List.mem_cons.1 hx with rfl | hx2
          · exact ⟨a, List.mem_cons_self _ _, b, List.mem_cons_self _ _, rfl⟩
          · rcases ih bs x hx2 with ⟨a2, ha, b2, hb, rfl⟩
            exact ⟨a2, List.mem_cons_of_mem a ha, b2, List.mem_cons_of_mem b hb, rfl⟩

/-! ### The synced-snapshot run of the matching loop (claim C2) -/

theorem storedForm_key (d : Doc) (o : String) :
    getEntryKey (storedForm d o) = getEntryKey d := rfl

theorem assignedForm_key (d : Doc) (o : String) :
    getEntryKey (assignedForm d o) = getEntryKey d := rfl

theorem storedForm_locale (d : Doc) (o : String) :
    (storedForm d o).locale = d.locale := rfl

theorem storedForm_objectID (d : Doc) (o : String) :
    (storedForm d o).objectID = some o := rfl

theorem storedForm_contentType (d : Doc) (o : String) :
    (storedForm d o).contentType = d.contentType := rfl

theorem assignedForm_objectID (d : Doc) (o : String) :
    (assignedForm d o).objectID = some o := rfl

/-- After the `objectID` copy the stored twin compares equal: compacting
`assignedForm d o` yields exactly `storedForm d o`. -/
theorem docEqualUsed_assigned_stored (d : Doc) (o : String) :
    docEqualUsed (assignedForm d o) (storedForm d o) = true := by
  unfold docEqualUsed
  have hcc : compactDoc (assignedForm d o) = storedForm d o := rfl
  rw [hcc]
  exact isEqualDoc_refl _

theorem procHits_synced :
    ∀ (suf : List Doc) (oids : List String) (pre : List Doc),
      oids.length = suf.length →
      (((pre ++ suf).map getEntryKey)).Nodup →
      procHits (pre ++ suf) (List.zipWith storedForm suf oids) true =
        (pre ++ List.zipWith assignedForm suf oids, [], []) := by
  intro suf
  induction suf with
  | nil =>
      intro oids pre _ _
      simp [procHits]
  | cons d ds ih =>
      intro oids pre hlen hnd
      cases oids with
      | nil => simp at hlen
      | cons o os =>
          have hkeys : (pre ++ d :: ds).map getEntryKey =
              pre.map getEntryKey ++ getEntryKey d :: ds.map getEntryKey := by
            simp
          have hnd2 := hnd
          rw [hkeys] at hnd2
          have hdsub : (getEntryKey d :: ds.map getEntryKey).Nodup :=
            (List.nodup_append.1 hnd2).2.1
          have hds_ne : ∀ x ∈ ds, getEntryKey x ≠ getEntryKey d := by
            intro x hx heq
            exact (List.nodup_cons.1 hdsub).1 (heq ▸ List.mem_map_of_mem getEntryKey hx)
          have hpre_ne : ∀ x ∈ pre, getEntryKey x ≠ getEntryKey d := by
            intro x hx heq
            have hdisj : (pre.map getEntryKey).Disjoint
                (getEntryKey d :: ds.map getEntryKey) :=
              (List.nodup_append.1 hnd2).2.2
            exact hdisj (List.mem_map_of_mem getEntryKey hx)
              (by rw [heq]; exact List.mem_cons_self _ _)
          have hkd : keyByGet (pre ++ d :: ds) (getEntryKey d) = some d := by
            rw [keyByGet_append, keyByGet_cons,
              (keyByGet_eq_none ds (getEntryKey d)).2 hds_ne,
              if_pos (by simp)]
          have hassign : assignLast (pre ++ d :: ds) (getEntryKey d) (some o) =
              pre ++ assignedForm d o :: ds := by
            have hnoany : (ds.any fun x => getEntryKey x == getEntryKey d) = false := by
              rw [List.any_eq_false]
              intro x hx
              simpa using hds_ne x hx
            rw [assignLast_append_right pre (d :: ds) _ _ hpre_ne
              (by simp), assignLast]
            rw [if_neg (by simp [hnoany]), if_pos (by simp)]
            rfl
          have hkd2 : keyByGet (pre ++ assignedForm d o :: ds)
              (getEntryKey d) = some (assignedForm d o) := by
            rw [keyByGet_append, keyByGet_cons,
              (keyByGet_eq_none ds (getEntryKey d)).2 hds_ne,
              if_pos (by rw [assignedForm_key]; simp)]
          have hnd3 : (((pre ++ [assignedForm d o]) ++ ds).map
              getEntryKey).Nodup := by
            have hsame : ((pre ++ [assignedForm d o]) ++ ds).map
                getEntryKey = (pre ++ d :: ds).map getEntryKey := by
              simp [assignedForm_key]
            rw [hsame]
            exact hnd
          rw [List.zipWith_cons_cons, procHits]
          simp only [storedForm_key, hkd, storedForm_locale,
            storedForm_objectID, beq_self_eq_true, if_true, hassign, hkd2,
            Option.getD_some, docEqualUsed_assigned_stored]
          have ihx := ih os (pre ++ [assignedForm d o])
            (by simpa using hlen) hnd3
          rw [List.append_assoc, List.singleton_append] at ihx
          rw [ihx, List.append_assoc, List.singleton_append,
            List.zipWith_cons_cons]

/-! ### Invariants of the matching loop (claim C4) -/

theorem exists_same_key_of_map_eq (l1 l2 : List Doc)
    (hmap : l1.map getEntryKey = l2.map getEntryKey) (d0 : Doc)
    (h : d0 ∈ l1) : ∃ d2 ∈ l2, getEntryKey d2 = getEntryKey d0 := by
  have hm : getEntryKey d0 ∈ l1.map getEntryKey :=
    List.mem_map_of_mem getEntryKey h
  rw [hmap] at hm
  rcases List.mem_map.1 hm with ⟨a, ha, hk⟩
  exact ⟨a, ha, hk⟩

/-- The walk over the snapshot hits preserves the key sequence of the
document list, assigns only truthy `objectID`s taken from *matched*
hits, pushes to `updated` only keys whose final document carries such an
`objectID`, and pushes to `deleted` only the `objectID`s of hits whose
key matches no document at all. -/
theorem procHits_props :
    ∀ (hits : List Doc) (ds : List Doc) (ctGiven : Bool),
      (∀ d ∈ ds, ∀ h ∈ hits, getEntryKey d = getEntryKey h → d.locale = h.locale) →
      (∀ h ∈ hits, jsTruthyStr h.objectID = true) →
      ((procHits ds hits ctGiven).1.map getEntryKey = ds.map getEntryKey) ∧
      (∀ k d, keyByGet ds k = some d →
        ∃ d2, keyByGet (procHits ds hits ctGiven).1 k = some d2 ∧
          (d2.objectID = d.objectID ∨
            ∃ h ∈ hits, d2.objectID = h.objectID ∧
              ∃ d0 ∈ ds, getEntryKey d0 = getEntryKey h)) ∧
      (∀ k ∈ (procHits ds hits ctGiven).2.1, ∀ d2,
        keyByGet (procHits ds hits ctGiven).1 k = some d2 →
          jsTruthyStr d2.objectID = true ∧
          ∃ h ∈ hits, d2.objectID = h.objectID ∧
            ∃ d0 ∈ ds, getEntryKey d0 = getEntryKey h) ∧
      (∀ o ∈ (procHits ds hits ctGiven).2.2,
        ∃ h ∈ hits, o = h.objectID ∧ ∀ d0 ∈ ds, getEntryKey d0 ≠ getEntryKey h) := by
  intro hits
  induction hits with
  | nil =>
      intro ds ctGiven _ _
      refine ⟨rfl, ?_, ?_, ?_⟩
      · intro k d hk
        exact ⟨d, hk, Or.inl rfl⟩
      · intro k hk
        simp [procHits] at hk
      · intro o ho
        simp [procHits] at ho
  | cons h0 hs ih =>
      intro ds ctGiven hamb htr
      have hamb_hs : ∀ d ∈ ds, ∀ h ∈ hs, getEntryKey d = getEntryKey h →
          d.locale = h.locale :=
        fun d hd h hh => hamb d hd h (List.mem_cons_of_mem h0 hh)
      have htr_hs : ∀ h ∈ hs, jsTruthyStr h.objectID = true :=
        fun h hh => htr h (List.mem_cons_of_mem h0 hh)
      cases hmatch : keyByGet ds (getEntryKey h0) with
      | none =>
          have hnomatch : ∀ d0 ∈ ds, getEntryKey d0 ≠ getEntryKey h0 :=
            (keyByGet_eq_none ds (getEntryKey h0)).1 hmatch
          cases ctGiven with
          | false =>
              rcases ih ds false hamb_hs htr_hs with ⟨ih0, ih4, ih1, ih2⟩
              have hstep : procHits ds (h0 :: hs) false = procHits ds hs false := by
                rw [procHits]
                simp only [hmatch]
                rfl
              rw [hstep]
              refine ⟨ih0, ?_, ?_, ?_⟩
              · intro k d hk
                rcases ih4 k d hk with ⟨d2, hd2, hprov⟩
                refine ⟨d2, hd2, ?_⟩
                rcases hprov with h | ⟨h, hh, hoid, d0, hd0, hk0⟩
                · exact Or.inl h
                · exact Or.inr ⟨h, List.mem_cons_of_mem h0 hh, hoid, d0, hd0, hk0⟩
              · intro k hk d2 hd2
                rcases ih1 k hk d2 hd2 with ⟨htry, h, hh, hoid, d0, hd0, hk0⟩
                exact ⟨htry, h, List.mem_cons_of_mem h0 hh, hoid, d0, hd0, hk0⟩
              · intro o ho
                rcases ih2 o ho with ⟨h, hh, hoid, hno⟩
                exact ⟨h, List.mem_cons_of_mem h0 hh, hoid, hno⟩
          | true =>
              rcases ih ds true hamb_hs htr_hs with ⟨ih0, ih4, ih1, ih2⟩
              have hstep : procHits ds (h0 :: hs) true =
                  ((procHits ds hs true).1, (procHits ds hs true).2.1,
                    h0.objectID :: (procHits ds hs true).2.2) := by
                rw [procHits]
                simp only [hmatch]
                rfl
              rw [hstep]
              refine ⟨ih0, ?_, ?_, ?_⟩
              · intro k d hk
                rcases ih4 k d hk with ⟨d2, hd2, hprov⟩
                refine ⟨d2, hd2, ?_⟩
                rcases hprov with h | ⟨h, hh, hoid, d0, hd0, hk0⟩
                · exact Or.inl h
                · exact Or.inr ⟨h, List.mem_cons_of_mem h0 hh, hoid, d0, hd0, hk0⟩
              · intro k hk d2 hd2
                rcases ih1 k hk d2 hd2 with ⟨htry, h, hh, hoid, d0, hd0, hk0⟩
                exact ⟨htry, h, List.mem_cons_of_mem h0 hh, hoid, d0, hd0, hk0⟩
              · intro o ho
                rcases List.mem_cons.1 ho with rfl | ho2
                · exact ⟨h0, List.mem_cons_self _ _, rfl, hnomatch⟩
                · rcases ih2 o ho2 with ⟨h, hh, hoid, hno⟩
                  exact ⟨h, List.mem_cons_of_mem h0 hh, hoid, hno⟩
      | some e =>
          have hemem := keyByGet_eq_some _ ds e hmatch
          have hloc : e.locale = h0.locale :=
            hamb e hemem.1 h0 (List.mem_cons_self _ _) hemem.2
          have hlocb : (e.locale == h0.locale) = true := by simp [hloc]
          have hkb1 : keyByGet (assignLast ds (getEntryKey h0) h0.objectID)
              (getEntryKey h0) = some { e with objectID := h0.objectID } :=
            keyByGet_assignLast_same ds (getEntryKey h0) h0.objectID e hmatch
          have hstep : procHits ds (h0 :: hs) ctGiven =
              (if docEqualUsed { e with objectID := h0.objectID } h0 then
                procHits (assignLast ds (getEntryKey h0) h0.objectID) hs ctGiven
              else
                ((procHits (assignLast ds (getEntryKey h0) h0.objectID) hs ctGiven).1,
                  getEntryKey h0 ::
                    (procHits (assignLast ds (getEntryKey h0) h0.objectID) hs ctGiven).2.1,
                  (procHits (assignLast ds (getEntryKey h0) h0.objectID) hs ctGiven).2.2)) := by
            rw [procHits]
            simp only [hmatch, hlocb, if_true, hkb1, Option.getD_some]
          have hmapkeys : (assignLast ds (getEntryKey h0) h0.objectID).map getEntryKey
              = ds.map getEntryKey :=
            assignLast_map_key ds (getEntryKey h0) h0.objectID
          have hamb1 : ∀ d ∈ assignLast ds (getEntryKey h0) h0.objectID, ∀ h ∈ hs,
              getEntryKey d = getEntryKey h → d.locale = h.locale := by
            intro d hd h hh hk
            rcases mem_assignLast ds (getEntryKey h0) h0.objectID d hd with hmem | ⟨x, hx, rfl⟩
            · exact hamb_hs d hmem h hh hk
            · exact hamb_hs x hx h hh hk
          rcases ih (assignLast ds (getEntryKey h0) h0.objectID) ctGiven hamb1 htr_hs
            with ⟨ih0, ih4, ih1, ih2⟩
          have hm0 : (procHits (assignLast ds (getEntryKey h0) h0.objectID) hs ctGiven).1.map
              getEntryKey = ds.map getEntryKey := by
            rw [ih0, hmapkeys]
          -- the provenance transfer from the assigned list back to `ds`
          have htransfer : ∀ d0 ∈ assignLast ds (getEntryKey h0) h0.objectID,
              ∃ d2 ∈ ds, getEntryKey d2 = getEntryKey d0 :=
            exists_same_key_of_map_eq _ ds hmapkeys
          have hM4 : ∀ k d, keyByGet ds k = some d →
              ∃ d2, keyByGet (procHits (assignLast ds (getEntryKey h0) h0.objectID) hs ctGiven).1
                  k = some d2 ∧
                (d2.objectID = d.objectID ∨
                  ∃ h ∈ h0 :: hs, d2.objectID = h.objectID ∧
                    ∃ d0 ∈ ds, getEntryKey d0 = getEntryKey h) := by
            intro k d hk
            by_cases hkk : k = getEntryKey h0
            · subst hkk
              have hde : d = e := by
                rw [hmatch] at hk
                injection hk with hk2
                exact hk2.symm
              subst hde
              rcases ih4 _ _ hkb1 with ⟨d2, hd2, hprov⟩
              refine ⟨d2, hd2, Or.inr ?_⟩
              rcases hprov with hsame | ⟨h, hh, hoid, d0, hd0, hk0⟩
              · exact ⟨h0, List.mem_cons_self _ _, hsame, d, hemem.1, hemem.2⟩
              · rcases htransfer d0 hd0 with ⟨d2x, hd2x, hk2x⟩
                exact ⟨h, List.mem_cons_of_mem h0 hh, hoid, d2x, hd2x,
                  hk2x.trans hk0⟩
            · have hk1 : keyByGet (assignLast ds (getEntryKey h0) h0.objectID) k =
                  some d := by
                rw [keyByGet_assignLast_ne ds (getEntryKey h0) k h0.objectID hkk]
                exact hk
              rcases ih4 k d hk1 with ⟨d2, hd2, hprov⟩
              refine ⟨d2, hd2, ?_⟩
              rcases hprov with hsame | ⟨h, hh, hoid, d0, hd0, hk0⟩
              · exact Or.inl hsame
              · rcases htransfer d0 hd0 with ⟨d2x, hd2x, hk2x⟩
                exact Or.inr ⟨h, List.mem_cons_of_mem h0 hh, hoid, d2x, hd2x,
                  hk2x.trans hk0⟩
          have hM1push : ∀ d2,
              keyByGet (procHits (assignLast ds (getEntryKey h0) h0.objectID) hs ctGiven).1
                  (getEntryKey h0) = some d2 →
                jsTruthyStr d2.objectID = true ∧
                ∃ h ∈ h0 :: hs, d2.objectID = h.objectID ∧
                  ∃ d0 ∈ ds, getEntryKey d0 = getEntryKey h := by
            intro d2 hd2
            rcases ih4 _ _ hkb1 with ⟨d2x, hd2x, hprov⟩
            have hdd : d2x = d2 := by
              rw [hd2x] at hd2
              injection hd2
            subst hdd
            rcases hprov with hsame | ⟨h, hh, hoid, d0, hd0, hk0⟩
            · have hoid2 : d2x.objectID = h0.objectID := hsame
              refine ⟨?_, h0, List.mem_cons_self _ _, hoid2, e, hemem.1, hemem.2⟩
              rw [hoid2]
              exact htr h0 (List.mem_cons_self _ _)
            · refine ⟨?_, h, List.mem_cons_of_mem h0 hh, hoid, ?_⟩
              · rw [hoid]
                exact htr_hs h hh
              · rcases htransfer d0 hd0 with ⟨d2y, hd2y, hk2y⟩
                exact ⟨d2y, hd2y, hk2y.trans hk0⟩
          have hM1 : ∀ k ∈ (procHits (assignLast ds (getEntryKey h0) h0.objectID) hs ctGiven).2.1,
              ∀ d2, keyByGet (procHits (assignLast ds (getEntryKey h0) h0.objectID) hs ctGiven).1
                  k = some d2 →
                jsTruthyStr d2.objectID = true ∧
                ∃ h ∈ h0 :: hs, d2.objectID = h.objectID ∧
                  ∃ d0 ∈ ds, getEntryKey d0 = getEntryKey h := by
            intro k hk d2 hd2
            rcases ih1 k hk d2 hd2 with ⟨htry, h, hh, hoid, d0, hd0, hk0⟩
            rcases htransfer d0 hd0 with ⟨d2y, hd2y, hk2y⟩
            exact ⟨htry, h, List.mem_cons_of_mem h0 hh, hoid, d2y, hd2y, hk2y.trans hk0⟩
          have hM2 : ∀ o ∈ (procHits (assignLast ds (getEntryKey h0) h0.objectID) hs ctGiven).2.2,
              ∃ h ∈ h0 :: hs, o = h.objectID ∧
                ∀ d0 ∈ ds, getEntryKey d0 ≠ getEntryKey h := by
            intro o ho
            rcases ih2 o ho with ⟨h, hh, hoid, hno⟩
            refine ⟨h, List.mem_cons_of_mem h0 hh, hoid, ?_⟩
            intro d0 hd0 hk0
            have hm : getEntryKey d0 ∈ ds.map getEntryKey :=
              List.mem_map_of_mem getEntryKey hd0
            rw [← hmapkeys] at hm
            rcases List.mem_map.1 hm with ⟨a, ha, hka⟩
            exact hno a ha (hka.trans hk0)
          rw [hstep]
          by_cases hdeq : docEqualUsed { e with objectID := h0.objectID } h0 = true
          · rw [if_pos hdeq]
            exact ⟨hm0, hM4, hM1, hM2⟩
          · rw [if_neg hdeq]
            refine ⟨hm0, hM4, ?_, hM2⟩
            intro k hk d2 hd2
            rcases List.mem_cons.1 hk with rfl | hk2
            · exact hM1push d2 hd2
            · exact hM1 k hk2 d2 hd2

/-! ### Paged fetching lemmas -/

theorem getEntriesPagedTrace_snd {α : Type} (n : Nat) :
    ∀ (backend : List α) (skip : Nat) (prev : List α),
      backend.length - skip ≤ n →
      (getEntriesPagedTrace backend skip prev).2 = prev ++ backend.drop skip := by
  induction n with
  | zero =>
      intro backend skip prev hle
      rw [getEntriesPagedTrace]
      split
      · omega
      · rw [List.take_of_length_le (by simp; omega)]
  | succ n ih =>
      intro backend skip prev hle
      rw [getEntriesPagedTrace]
      split
      · rename_i hlt
        rw [ih backend (skip + 1000) (prev ++ (backend.drop skip).take 1000) (by omega)]
        rw [List.append_assoc]
        congr 1
        have hd : backend.drop (skip + 1000) = (backend.drop skip).drop 1000 := by
          rw [List.drop_drop]
        rw [hd, List.take_append_drop]
      · rw [List.take_of_length_le (by simp; omega)]

theorem getEntriesPagedTrace_fst {α : Type} (n : Nat) :
    ∀ (backend : List α) (skip : Nat) (prev : List α) (o : Nat),
      backend.length - skip ≤ n →
      (o ∈ (getEntriesPagedTrace backend skip prev).1 ↔
        (o = skip ∨ (skip < o ∧ (o - skip) % 1000 = 0 ∧ o < backend.length))) := by
  induction n with
  | zero =>
      intro backend skip prev o hle
      rw [getEntriesPagedTrace]
      split
      · omega
      · rename_i hge
        simp only [List.mem_singleton]
        constructor
        · intro h
          exact Or.inl h
        · rintro (h | ⟨h1, h2, h3⟩)
          · exact h
          · omega
  | succ n ih =>
      intro backend skip prev o hle
      rw [getEntriesPagedTrace]
      split
      · rename_i hlt
        simp only [List.mem_cons]
        rw [ih backend (skip + 1000) (prev ++ (backend.drop skip).take 1000) o (by omega)]
        constructor
        · rintro (h | h | ⟨h1, h2, h3⟩)
          · exact Or.inl h
          · right; omega
          · right; omega
        · rintro (h | ⟨h1, h2, h3⟩)
          · exact Or.inl h
          · by_cases ho : o = skip + 1000
            · exact Or.inr (Or.inl ho)
            · right; right; omega
      · rename_i hge
        simp only [List.mem_singleton]
        constructor
        · intro h
          exact Or.inl h
        · rintro (h | ⟨h1, h2, h3⟩)
          · exact h
          · omega

/-! ### Flattener lemmas (claims C5, C10) -/

theorem objGetD_objSetVal_same (fs : List (String × CVal)) (k : String)
    (v : CVal) : objGetD (objSetVal fs k v) k = v := by
  induction fs with
  | nil => simp [objSetVal, objGetD]
  | cons p rest ih =>
      rw [objSetVal]
      by_cases hp : p.1 = k
      · rw [if_pos hp, objGetD, if_pos hp]
      · rw [if_neg hp, objGetD, if_neg hp]
        exact ih

theorem objGetD_objSetVal_ne (fs : List (String × CVal)) (k k2 : String)
    (v : CVal) (h : k2 ≠ k) : objGetD (objSetVal fs k v) k2 = objGetD fs k2 := by
  induction fs with
  | nil =>
      simp only [objSetVal, objGetD]
      rw [if_neg (fun hh : k = k2 => h hh.symm)]
  | cons p rest ih =>
      rw [objSetVal]
      by_cases hp : p.1 = k
      · rw [if_pos hp, objGetD, objGetD]
        by_cases hp2 : p.1 = k2
        · exact absurd (hp2.symm.trans hp) h
        · rw [if_neg hp2, if_neg hp2]
      · rw [if_neg hp, objGetD, objGetD]
        by_cases hp2 : p.1 = k2
        · rw [if_pos hp2, if_pos hp2]
        · rw [if_neg hp2, if_neg hp2]
          exact ih

theorem objSetVal_keys_mem (fs : List (String × CVal)) (k : String) (v : CVal)
    (h : k ∈ fs.map Prod.fst) :
    (objSetVal fs k v).map Prod.fst = fs.map Prod.fst := by
  induction fs with
  | nil => simp at h
  | cons p rest ih =>
      rw [objSetVal]
      by_cases hp : p.1 = k
      · rw [if_pos hp]
        rfl
      · rw [if_neg hp, List.map_cons, List.map_cons, ih]
        rcases List.mem_cons.1 (List.map_cons Prod.fst p rest ▸ h) with hk | hk
        · exact absurd hk.symm hp
        · exact hk

theorem objSetVal_keys_not_mem (fs : List (String × CVal)) (k : String)
    (v : CVal) (h : k ∉ fs.map Prod.fst) :
    (objSetVal fs k v).map Prod.fst = fs.map Prod.fst ++ [k] := by
  induction fs with
  | nil => rfl
  | cons p rest ih =>
      rw [objSetVal]
      have hp : p.1 ≠ k := by
        intro hh
        exact h (by rw [← hh]; exact List.mem_cons_self _ _)
      rw [if_neg hp, List.map_cons, List.map_cons, List.cons_append, ih]
      intro hh
      exact h (List.mem_cons_of_mem _ hh)

theorem objSetVal_nodup (fs : List (String × CVal)) (k : String) (v : CVal)
    (h : (fs.map Prod.fst).Nodup) :
    ((objSetVal fs k v).map Prod.fst).Nodup := by
  by_cases hm : k ∈ fs.map Prod.fst
  · rw [objSetVal_keys_mem fs k v hm]
    exact h
  · rw [objSetVal_keys_not_mem fs k v hm]
    refine List.nodup_append.2 ⟨h, List.nodup_singleton k, ?_⟩
    intro a ha hak
    rw [List.mem_singleton] at hak
    exact hm (hak ▸ ha)

theorem objGetD_objDeleteKey_ne (fs : List (String × CVal)) (k k2 : String)
    (h : k2 ≠ k) : objGetD (objDeleteKey fs k) k2 = objGetD fs k2 := by
  induction fs with
  | nil => rfl
  | cons p rest ih =>
      rw [objDeleteKey] at *
      by_cases hp : p.1 = k
      · rw [List.filter_cons, if_neg (by simp [hp]), objGetD,
          if_neg (fun hh => h (hh.symm.trans hp))]
        exact ih
      · rw [List.filter_cons, if_pos (by simpa using hp), objGetD, objGetD]
        by_cases hp2 : p.1 = k2
        · rw [if_pos hp2, if_pos hp2]
        · rw [if_neg hp2, if_neg hp2]
          exact ih

theorem objGetD_mem_keys (fs : List (String × CVal)) (k : String)
    (h : objGetD fs k ≠ .undefined) : k ∈ fs.map Prod.fst := by
  induction fs with
  | nil => exact absurd rfl h
  | cons p rest ih =>
      rw [objGetD] at h
      by_cases hp : p.1 = k
      · exact hp ▸ List.mem_cons_self _ _
      · rw [if_neg hp] at h
        exact List.mem_cons_of_mem _ (ih h)

theorem lodashMerge_str (x : CVal) (c : String) :
    lodashMerge x (.str c) = .str c := by
  cases x <;> rfl

theorem mergePairs_objGetD_not_mem (s : List (String × CVal)) :
    ∀ (d : List (String × CVal)) (k : String), (∀ p ∈ s, p.1 ≠ k) →
      objGetD (lodashMergePairs d s) k = objGetD d k := by
  induction s with
  | nil => intro d k _; rfl
  | cons p rest ih =>
      intro d k h
      rw [show lodashMergePairs d (p :: rest) =
        lodashMergePairs (objSetVal d p.1 (lodashMerge (objGetD d p.1) p.2)) rest
        from rfl]
      rw [ih _ k (fun q hq => h q (List.mem_cons_of_mem p hq)),
        objGetD_objSetVal_ne _ _ _ _
          (fun hh => h p (List.mem_cons_self _ _) hh.symm)]

theorem mergePairs_objGetD_str (s : List (String × CVal)) :
    ∀ (d : List (String × CVal)) (k : String) (c : String),
      objGetD s k = .str c → (s.map Prod.fst).Nodup →
      objGetD (lodashMergePairs d s) k = .str c := by
  induction s with
  | nil =>
      intro d k c h _
      simp [objGetD] at h
  | cons p rest ih =>
      intro d k c h hnd
      rw [show lodashMergePairs d (p :: rest) =
        lodashMergePairs (objSetVal d p.1 (lodashMerge (objGetD d p.1) p.2)) rest
        from rfl]
      have hnd2 : (p.1 :: rest.map Prod.fst).Nodup := by
        rw [List.map_cons] at hnd
        exact hnd
      have hhead : p.1 ∉ rest.map Prod.fst := (List.nodup_cons.1 hnd2).1
      have htail : (rest.map Prod.fst).Nodup := (List.nodup_cons.1 hnd2).2
      by_cases hp : p.1 = k
      · have hv : p.2 = .str c := by
          rw [objGetD, if_pos hp] at h
          exact h
        have hrest : ∀ q ∈ rest, q.1 ≠ k := by
          intro q hq hqk
          exact hhead (by rw [hp, ← hqk]; exact List.mem_map_of_mem Prod.fst hq)
        rw [mergePairs_objGetD_not_mem rest _ k hrest, ← hp,
          objGetD_objSetVal_same, hv, lodashMerge_str]
      · rw [objGetD, if_neg hp] at h
        exact ih _ k c h htail

/-! ### Unfolding equations for the fuelled recursions -/

theorem getFields_zero (locales : List (List String)) (fields : CVal)
    (g : List String) : getFields locales 0 fields g = fields := by
  rw [getFields]

theorem getFields_succ_obj (locales : List (List String)) (f : Nat)
    (fs : List (String × CVal)) (g : List String) :
    getFields locales (f + 1) (.obj fs) g =
      (fs.map Prod.fst).foldl (fun acc k => getFieldEntry locales f acc k g)
        (.obj fs) := by
  rw [getFields]

theorem getFields_succ_other (locales : List (List String)) (f : Nat)
    (fields : CVal) (g : List String) (h : ∀ fs, fields ≠ .obj fs) :
    getFields locales (f + 1) fields g = fields := by
  cases fields with
  | obj fs => exact absurd rfl (h fs)
  | undefined =>
      rw [getFields]
      exact h
  | nullv =>
      rw [getFields]
      exact h
  | boolean b =>
      rw [getFields]
      exact h
  | num n =>
      rw [getFields]
      exact h
  | str sx =>
      rw [getFields]
      exact h
  | arr a =>
      rw [getFields]
      exact h

theorem getFieldEntry_obj (locales : List (List String)) (f : Nat)
    (fs : List (String × CVal)) (key : String) (g : List String) :
    getFieldEntry locales f (.obj fs) key g =
      (if jsTruthy (objGetD fs key) = false then .obj fs
       else match objGetD fs key with
         | .arr elems =>
             .obj (objSetVal fs key
               (.arr (elems.map fun e => transformFieldElem locales f e g)))
         | _ => .obj fs) := by
  rw [getFieldEntry]

theorem getFieldEntry_other (locales : List (List String)) (f : Nat)
    (fields : CVal) (key : String) (g : List String)
    (h : ∀ fs, fields ≠ .obj fs) :
    getFieldEntry locales f fields key g = fields := by
  cases fields with
  | obj fs => exact absurd rfl (h fs)
  | undefined =>
      rw [getFieldEntry]
      exact h
  | nullv =>
      rw [getFieldEntry]
      exact h
  | boolean b =>
      rw [getFieldEntry]
      exact h
  | num n =>
      rw [getFieldEntry]
      exact h
  | str sx =>
      rw [getFieldEntry]
      exact h
  | arr a =>
      rw [getFieldEntry]
      exact h

theorem getLocalForNestedFields_zero (locales : List (List String))
    (entry : CVal) (g : List String) :
    getLocalForNestedFields locales 0 entry g = entry := by
  rw [getLocalForNestedFields]

theorem getLocalForNestedFields_succ_obj (locales : List (List String))
    (fuel : Nat) (fs : List (String × CVal)) (g : List String) :
    getLocalForNestedFields locales (fuel + 1) (.obj fs) g =
      .obj (fs.map fun kv =>
        match kv.2 with
        | .arr elems =>
            (kv.1, CVal.arr (elems.map fun item => nestedLocalItem locales fuel item g))
        | _ => kv) := by
  rw [getLocalForNestedFields]

theorem getLocalForNestedFields_succ_other (locales : List (List String))
    (fuel : Nat) (entry : CVal) (g : List String) (h : ∀ fs, entry ≠ .obj fs) :
    getLocalForNestedFields locales (fuel + 1) entry g = entry := by
  cases entry with
  | obj fs => exact absurd rfl (h fs)
  | undefined =>
      rw [getLocalForNestedFields]
      exact h
  | nullv =>
      rw [getLocalForNestedFields]
      exact h
  | boolean b =>
      rw [getLocalForNestedFields]
      exact h
  | num n =>
      rw [getLocalForNestedFields]
      exact h
  | str sx =>
      rw [getLocalForNestedFields]
      exact h
  | arr a =>
      rw [getLocalForNestedFields]
      exact h

/-! ### Preservation of the document's `locale` tag (claim C5) -/

theorem getFieldsForLocale_locale (fields : CVal) (c : String)
    (rest : List String) :
    cvalIndex (getFieldsForLocale fields (c :: rest)) "locale" = .str c := by
  unfold getFieldsForLocale
  cases fields with
  | obj fs =>
      show objGetD (objSetVal _ "locale" _) "locale" = _
      rw [objGetD_objSetVal_same]
      rfl
  | undefined =>
      show objGetD (objSetVal _ "locale" _) "locale" = _
      rw [objGetD_objSetVal_same]
      rfl
  | nullv =>
      show objGetD (objSetVal _ "locale" _) "locale" = _
      rw [objGetD_objSetVal_same]
      rfl
  | boolean b =>
      show objGetD (objSetVal _ "locale" _) "locale" = _
      rw [objGetD_objSetVal_same]
      rfl
  | num n =>
      show objGetD (objSetVal _ "locale" _) "locale" = _
      rw [objGetD_objSetVal_same]
      rfl
  | str sx =>
      show objGetD (objSetVal _ "locale" _) "locale" = _
      rw [objGetD_objSetVal_same]
      rfl
  | arr a =>
      show objGetD (objSetVal _ "locale" _) "locale" = _
      rw [objGetD_objSetVal_same]
      rfl

theorem getFieldsForLocale_shape (fields : CVal) (g : List String)
    (h : objKeysNodup fields) :
    ∃ fs2, getFieldsForLocale fields g = .obj fs2 ∧
      (fs2.map Prod.fst).Nodup := by
  unfold getFieldsForLocale
  cases fields with
  | obj fs =>
      refine ⟨_, rfl, ?_⟩
      apply objSetVal_nodup
      have h2 : (fs.map Prod.fst).Nodup := h
      have hmapkeys : ((fs.map fun kv => (kv.1, getLocaleString kv.2 g)).map
          Prod.fst) = fs.map Prod.fst := by
        rw [List.map_map]
        rfl
      rw [hmapkeys]
      exact h2
  | undefined => exact ⟨_, rfl, by simp [objSetVal]⟩
  | nullv => exact ⟨_, rfl, by simp [objSetVal]⟩
  | boolean b => exact ⟨_, rfl, by simp [objSetVal]⟩
  | num n => exact ⟨_, rfl, by simp [objSetVal]⟩
  | str sx => exact ⟨_, rfl, by simp [objSetVal]⟩
  | arr a => exact ⟨_, rfl, by simp [objSetVal]⟩

theorem getFieldEntry_str_key (locales : List (List String)) (f : Nat)
    (fields : CVal) (key : String) (g : List String) (k c : String)
    (h : cvalIndex fields k = .str c) :
    cvalIndex (getFieldEntry locales f fields key g) k = .str c := by
  cases fields with
  | obj fs =>
      rw [getFieldEntry_obj]
      by_cases htr : jsTruthy (objGetD fs key) = false
      · rw [if_pos htr]
        exact h
      · rw [if_neg htr]
        cases hv : objGetD fs key with
        | arr elems =>
            have hkk : key ≠ k := by
              intro hkk
              rw [hkk] at hv
              rw [show cvalIndex (CVal.obj fs) k = objGetD fs k from rfl] at h
              rw [h] at hv
              exact absurd hv (by intro hh; cases hh)
            show objGetD (objSetVal fs key _) k = _
            rw [objGetD_objSetVal_ne fs key k _ (fun hh => hkk hh.symm)]
            exact h
        | undefined => exact h
        | nullv => exact h
        | boolean b => exact h
        | num n => exact h
        | str sx => exact h
        | obj o => exact h
  | undefined => rw [getFieldEntry_other _ _ _ _ _ (by intro fs hh; cases hh)]; exact h
  | nullv => rw [getFieldEntry_other _ _ _ _ _ (by intro fs hh; cases hh)]; exact h
  | boolean b => rw [getFieldEntry_other _ _ _ _ _ (by intro fs hh; cases hh)]; exact h
  | num n => rw [getFieldEntry_other _ _ _ _ _ (by intro fs hh; cases hh)]; exact h
  | str sx => rw [getFieldEntry_other _ _ _ _ _ (by intro fs hh; cases hh)]; exact h
  | arr a => rw [getFieldEntry_other _ _ _ _ _ (by intro fs hh; cases hh)]; exact h

theorem getFields_foldl_str_key (locales : List (List String)) (f : Nat)
    (g : List String) (k c : String) :
    ∀ (keys : List String) (acc : CVal), cvalIndex acc k = .str c →
      cvalIndex (keys.foldl (fun acc kk => getFieldEntry locales f acc kk g) acc) k
        = .str c := by
  intro keys
  induction keys with
  | nil => intro acc h; exact h
  | cons kk rest ih =>
      intro acc h
      rw [List.foldl_cons]
      exact ih _ (getFieldEntry_str_key locales f acc kk g k c h)

theorem getFields_str_key (locales : List (List String)) (fuel : Nat)
    (fields : CVal) (g : List String) (k c : String)
    (h : cvalIndex fields k = .str c) :
    cvalIndex (getFields locales fuel fields g) k = .str c := by
  cases fuel with
  | zero => rw [getFields_zero]; exact h
  | succ f =>
      cases fields with
      | obj fs =>
          rw [getFields_succ_obj]
          exact getFields_foldl_str_key locales f g k c _ _ h
      | undefined => rw [getFields_succ_other _ _ _ _ (by intro fs hh; cases hh)]; exact h
      | nullv => rw [getFields_succ_other _ _ _ _ (by intro fs hh; cases hh)]; exact h
      | boolean b => rw [getFields_succ_other _ _ _ _ (by intro fs hh; cases hh)]; exact h
      | num n => rw [getFields_succ_other _ _ _ _ (by intro fs hh; cases hh)]; exact h
      | str sx => rw [getFields_succ_other _ _ _ _ (by intro fs hh; cases hh)]; exact h
      | arr a => rw [getFields_succ_other _ _ _ _ (by intro fs hh; cases hh)]; exact h

theorem getFieldEntry_shape (locales : List (List String)) (f : Nat)
    (fs : List (String × CVal)) (key : String) (g : List String) :
    ∃ fs2, getFieldEntry locales f (.obj fs) key g = .obj fs2 ∧
      fs2.map Prod.fst = fs.map Prod.fst := by
  rw [getFieldEntry_obj]
  by_cases htr : jsTruthy (objGetD fs key) = false
  · rw [if_pos htr]
    exact ⟨fs, rfl, rfl⟩
  · rw [if_neg htr]
    cases hv : objGetD fs key with
    | arr elems =>
        refine ⟨_, rfl, ?_⟩
        apply objSetVal_keys_mem
        apply objGetD_mem_keys
        rw [hv]
        intro hh
        cases hh
    | undefined => exact ⟨fs, rfl, rfl⟩
    | nullv => exact ⟨fs, rfl, rfl⟩
    | boolean b => exact ⟨fs, rfl, rfl⟩
    | num n => exact ⟨fs, rfl, rfl⟩
    | str sx => exact ⟨fs, rfl, rfl⟩
    | obj o => exact ⟨fs, rfl, rfl⟩

theorem getFields_foldl_shape (locales : List (List String)) (f : Nat)
    (g : List String) :
    ∀ (keys : List String) (fs : List (String × CVal)),
      ∃ fs2, (keys.foldl (fun acc kk => getFieldEntry locales f acc kk g) (.obj fs))
          = .obj fs2 ∧ fs2.map Prod.fst = fs.map Prod.fst := by
  intro keys
  induction keys with
  | nil => intro fs; exact ⟨fs, rfl, rfl⟩
  | cons kk rest ih =>
      intro fs
      rw [List.foldl_cons]
      rcases getFieldEntry_shape locales f fs kk g with ⟨fs1, hfs1, hk1⟩
      rw [hfs1]
      rcases ih fs1 with ⟨fs2, hfs2, hk2⟩
      exact ⟨fs2, hfs2, hk2.trans hk1⟩

theorem getFields_shape (locales : List (List String)) (fuel : Nat)
    (fs : List (String × CVal)) (g : List String) :
    ∃ fs2, getFields locales fuel (.obj fs) g = .obj fs2 ∧
      fs2.map Prod.fst = fs.map Prod.fst := by
  cases fuel with
  | zero => rw [getFields_zero]; exact ⟨fs, rfl, rfl⟩
  | succ f =>
      rw [getFields_succ_obj]
      exact getFields_foldl_shape locales f g (fs.map Prod.fst) fs

theorem lodashMerge_obj_right (x : CVal) (s : List (String × CVal)) :
    lodashMerge x (.obj s) =
      (match x with
       | .obj d => .obj (lodashMergePairs d s)
       | _ => .obj s) := by
  cases x <;> rfl

theorem mergeFields_locale (entry : CVal) (fs2 : List (String × CVal))
    (c : String) (hloc : objGetD fs2 "locale" = .str c)
    (hnd : (fs2.map Prod.fst).Nodup) :
    cvalIndex (mergeFields entry (.obj fs2)) "locale" = .str c := by
  unfold mergeFields
  have hdel : ∀ fs3 : List (String × CVal), objGetD fs3 "locale" = .str c →
      cvalIndex (objDeleteC (.obj fs3) "fields") "locale" = .str c := by
    intro fs3 h3
    show objGetD (objDeleteKey fs3 "fields") "locale" = .str c
    rw [objGetD_objDeleteKey_ne fs3 "fields" "locale" (by decide)]
    exact h3
  cases entry with
  | obj d => exact hdel _ (mergePairs_objGetD_str fs2 d "locale" c hloc hnd)
  | undefined => exact hdel _ (mergePairs_objGetD_str fs2 [] "locale" c hloc hnd)
  | nullv => exact hdel _ hloc
  | boolean b => exact hdel _ hloc
  | num n => exact hdel _ hloc
  | str sx => exact hdel _ hloc
  | arr a => exact hdel _ hloc

theorem objDeleteC_obj_str_key (v : CVal) (k c : String)
    (h : cvalIndex v k = .str c) (hk : k ≠ "fields") :
    cvalIndex (objDeleteC v "fields") k = .str c := by
  cases v with
  | obj fs =>
      show objGetD (objDeleteKey fs "fields") k = .str c
      rw [objGetD_objDeleteKey_ne fs "fields" k hk]
      exact h
  | undefined => exact h
  | nullv => exact h
  | boolean b => exact h
  | num n => exact h
  | str sx => exact h
  | arr a => exact h

theorem cleanLocales_str_key (entry : CVal) (g : List String) (k c : String)
    (h : cvalIndex entry k = .str c) :
    cvalIndex (cleanLocales entry g) k = .str c := by
  cases entry with
  | obj fs =>
      show objGetD _ k = .str c
      have h2 : objGetD fs k = .str c := h
      clear h
      induction fs with
      | nil => exact h2
      | cons p rest ih =>
          rw [List.map_cons, objGetD]
          rw [objGetD] at h2
          by_cases hp : p.1 = k
          · rw [if_pos hp] at h2
            cases hv : p.2 with
            | obj inner =>
                rw [hv] at h2
                cases h2
            | undefined => rw [hv] at h2; cases h2
            | nullv => rw [hv] at h2; cases h2
            | boolean b => rw [hv] at h2; cases h2
            | num n => rw [hv] at h2; cases h2
            | arr a => rw [hv] at h2; cases h2
            | str sx =>
                rw [hv]
                show (if p.1 = k then CVal.str sx else _) = _
                rw [if_pos hp]
                rw [hv] at h2
                exact h2
          · rw [if_neg hp] at h2
            have hfirst : ((fun kv : String × CVal =>
                match kv.2 with
                | CVal.obj inner =>
                    if jsTruthy (objGetD inner "fields") = true then
                      (kv.1, getFieldsForLocale (objGetD inner "fields") g)
                    else kv
                | _ => kv) p).1 = p.1 := by
              rcases p with ⟨pk, pv⟩
              cases pv with
              | obj inner =>
                  show (if jsTruthy (objGetD inner "fields") = true
                      then (pk, getFieldsForLocale (objGetD inner "fields") g)
                      else (pk, CVal.obj inner)).1 = pk
                  split <;> rfl
              | undefined => rfl
              | nullv => rfl
              | boolean b => rfl
              | num n => rfl
              | str sx => rfl
              | arr a => rfl
            rw [hfirst, if_neg hp]
            exact ih h2
  | undefined => exact h
  | nullv => exact h
  | boolean b => exact h
  | num n => exact h
  | str sx => exact h
  | arr a => exact h

theorem getLocalForNestedFields_str_key (locales : List (List String))
    (fuel : Nat) (entry : CVal) (g : List String) (k c : String)
    (h : cvalIndex entry k = .str c) :
    cvalIndex (getLocalForNestedFields locales fuel entry g) k = .str c := by
  cases fuel with
  | zero => rw [getLocalForNestedFields_zero]; exact h
  | succ f =>
      cases entry with
      | obj fs =>
          rw [getLocalForNestedFields_succ_obj]
          show objGetD _ k = .str c
          have h2 : objGetD fs k = .str c := h
          clear h
          induction fs with
          | nil => exact h2
          | cons p rest ih =>
              rw [List.map_cons, objGetD]
              rw [objGetD] at h2
              by_cases hp : p.1 = k
              · rw [if_pos hp] at h2
                cases hv : p.2 with
                | arr elems => rw [hv] at h2; cases h2
                | undefined => rw [hv] at h2; cases h2
                | nullv => rw [hv] at h2; cases h2
                | boolean b => rw [hv] at h2; cases h2
                | num n => rw [hv] at h2; cases h2
                | obj o => rw [hv] at h2; cases h2
                | str sx =>
                    rw [hv]
                    show (if p.1 = k then CVal.str sx else _) = _
                    rw [if_pos hp]
                    rw [hv] at h2
                    exact h2
              · rw [if_neg hp] at h2
                have hfirst : ((fun kv : String × CVal =>
                    match kv.2 with
                    | CVal.arr elems =>
                        (kv.1, CVal.arr (elems.map fun item =>
                          nestedLocalItem locales f item g))
                    | _ => kv) p).1 = p.1 := by
                  rcases p with ⟨pk, pv⟩
                  cases pv <;> rfl
                rw [hfirst, if_neg hp]
                exact ih h2
      | undefined => rw [getLocalForNestedFields_succ_other _ _ _ _ (by intro fs hh; cases hh)]; exact h
      | nullv => rw [getLocalForNestedFields_succ_other _ _ _ _ (by intro fs hh; cases hh)]; exact h
      | boolean b => rw [getLocalForNestedFields_succ_other _ _ _ _ (by intro fs hh; cases hh)]; exact h
      | num n => rw [getLocalForNestedFields_succ_other _ _ _ _ (by intro fs hh; cases hh)]; exact h
      | str sx => rw [getLocalForNestedFields_succ_other _ _ _ _ (by intro fs hh; cases hh)]; exact h
      | arr a => rw [getLocalForNestedFields_succ_other _ _ _ _ (by intro fs hh; cases hh)]; exact h


theorem cleanEntry_ret_fields (locales : List (List String))
    (l fs0 ss : List (String × CVal))
    (hfs : objGetD l "fields" = CVal.obj fs0)
    (hsys : objGetD l "sys" = CVal.obj ss) :
    ∃ fsC, cvalIndex ((cleanEntry locales (.obj l) false).1) "fields" = .obj fsC ∧
      ((fs0.map Prod.fst).Nodup → (fsC.map Prod.fst).Nodup) := by
  have hob : ∀ (xs : List (String × CVal)), jsTruthy (.obj xs) = true := fun _ => rfl
  simp only [cleanEntry, cvalIndex, hfs, hsys, hob, Bool.true_eq_false,
    Bool.false_eq_true, if_true, if_false, ite_true, ite_false, Bool.true_and]
  by_cases hct : jsTruthy (objGetD fs0 "contentType") = true
  · simp only [hct, Bool.not_true, Bool.false_eq_true, if_false, ite_false, objSetValC]
    refine ⟨fs0, ?_, fun h => h⟩
    show objGetD (objSetVal _ "fields" _) "fields" = _
    rw [objGetD_objSetVal_same]
  · have hct2 : jsTruthy (objGetD fs0 "contentType") = false :=
      Bool.eq_false_iff.2 hct
    simp only [hct2, Bool.not_false, if_true, ite_true, objSetValC]
    refine ⟨objSetVal fs0 "contentType" (ctMap locales
      (if jsTruthy (objGetD ss "contentType") = true then
        cvalIndex (cvalIndex (objGetD ss "contentType") "sys") "id"
      else CVal.boolean false)), ?_, ?_⟩
    · show objGetD (objSetVal _ "fields" _) "fields" = _
      rw [objGetD_objSetVal_same]
      rfl
    · intro h
      exact objSetVal_nodup fs0 "contentType" _ h

/-! ### `_cleanMore` guard lemma -/

theorem jsIndexOf_nil (e : CVal) : jsIndexOf [] e = -1 := rfl

/-- The broken guard: `_cleanMore` returns its argument unchanged
whenever `_.indexOf(cleanStack, entry)` is non-zero — in particular
whenever the entry is *not* on the stack (`-1`). -/
theorem cleanMore_skip (locales : List (List String)) (fuel : Nat)
    (entry : CVal) (group : List String) (stack : List CVal)
    (h : jsIndexOf stack entry ≠ 0) :
    cleanMore locales fuel entry group stack = entry := by
  rw [cleanMore.eq_def, if_pos h]

/-- From the public call sites (empty stack) `_cleanMore` is the
identity. -/
theorem cleanMore_nil_stack (locales : List (List String)) (fuel : Nat)
    (entry : CVal) (group : List String) :
    cleanMore locales fuel entry group [] = entry :=
  cleanMore_skip locales fuel entry group []
    (by rw [jsIndexOf_nil]; decide)

/-- The `locale` tag survives one per-group localization pass: it is set
by `_getFieldsForLocale` and no later stage touches a string-valued
top-level key. -/
theorem localizeOne_locale (locales : List (List String)) (fuel : Nat)
    (e : CVal) (c : String) (rest : List String)
    (hnd : objKeysNodup (cvalIndex e "fields")) :
    cvalIndex (localizeOne locales fuel e (c :: rest)) "locale" = .str c := by
  obtain ⟨fs1, hf1, hnd1⟩ := getFieldsForLocale_shape (cvalIndex e "fields")
    (c :: rest) hnd
  have hloc1 : objGetD fs1 "locale" = .str c := by
    have hx := getFieldsForLocale_locale (cvalIndex e "fields") c rest
    rw [hf1] at hx
    exact hx
  obtain ⟨fs2, hf2, hk2⟩ := getFields_shape locales fuel fs1 (c :: rest)
  have hloc2 : objGetD fs2 "locale" = .str c := by
    have hx := getFields_str_key locales fuel (.obj fs1) (c :: rest) "locale" c hloc1
    rw [hf2] at hx
    exact hx
  have hnd2 : (fs2.map Prod.fst).Nodup := by
    rw [hk2]
    exact hnd1
  have hm : cvalIndex (mergeFields e (.obj fs2)) "locale" = .str c :=
    mergeFields_locale e fs2 c hloc2 hnd2
  have hdel : cvalIndex (objDeleteC (mergeFields e (.obj fs2)) "fields") "locale"
      = .str c :=
    objDeleteC_obj_str_key _ _ _ hm (by decide)
  unfold localizeOne
  simp only []
  rw [hf1, hf2, cleanMore_nil_stack]
  exact getLocalForNestedFields_str_key locales fuel _ _ "locale" c
    (cleanLocales_str_key _ _ "locale" c hdel)

/-! ## Claim theorems -/

/-- C1.  A single-entry sync (`isSingle = true`) passes the empty list to
the batch-delete operation, whatever the snapshot and the document list
contain: `indexData` overwrites `deletedEntries` with `[]` before calling
`indexObjects`. -/
theorem c1_single_sync_never_deletes (data hits : List Doc)
    (contentType : Option String) :
    (indexDataCalls data hits contentType true).deleteArgs = [] := rfl

/-- C2.  Idempotence of the diff computation: when the snapshot holds
exactly the stored forms of the source documents (one hit per document,
compacted and carrying a non-empty `objectID`, same content type), a run
of `getElementsPromise` over the unchanged documents produces empty
`created`, `updated` and `deleted` sets. -/
theorem c2_reconcile_idempotent (data : List Doc) (oids : List String)
    (c : String) (hlen : oids.length = data.length)
    (hnd : (data.map getEntryKey).Nodup)
    (hct : ∀ d ∈ data, d.contentType = c) (hc : c ≠ "")
    (hoid : ∀ o ∈ oids, o ≠ "") :
    getElementsPromise data (List.zipWith storedForm data oids) (some c) =
      ⟨[], [], []⟩ := by
  unfold getElementsPromise
  have htr : jsTruthyStr (some c) = true := by simp [jsTruthyStr, hc]
  rw [htr]
  simp only [if_true]
  have hfilter : (List.zipWith storedForm data oids).filter
      (fun h => h.contentType == (some c : Option String).getD "") =
      List.zipWith storedForm data oids := by
    apply List.filter_eq_self.2
    intro h hh
    rcases mem_zipWith_cases storedForm data oids h hh with ⟨a, ha, b, hb, rfl⟩
    rw [storedForm_contentType]
    simp [hct a ha]
  rw [hfilter]
  have hmain := procHits_synced data oids [] hlen (by simpa using hnd)
  rw [List.nil_append] at hmain
  rw [hmain]
  simp only [List.nil_append]
  have hcreated : (List.zipWith assignedForm data oids).filter
      (fun d => !(jsTruthyStr d.objectID)) = [] := by
    rw [List.filter_eq_nil_iff]
    intro a ha
    rcases mem_zipWith_cases assignedForm data oids a ha with ⟨x, hx, y, hy, rfl⟩
    simp [assignedForm_objectID, jsTruthyStr, hoid y hy]
  rw [hcreated]
  rfl

/-- C2, witness. -/
theorem c2_reconcile_idempotent_witness :
    getElementsPromise
        [⟨"a", "en", "post", none, [("title", JSVal.str "x"), ("opt", JSVal.undefined)]⟩]
        (List.zipWith storedForm
          [⟨"a", "en", "post", none, [("title", JSVal.str "x"), ("opt", JSVal.undefined)]⟩]
          ["X1"])
        (some "post") = ⟨[], [], []⟩ :=
  c2_reconcile_idempotent
    [⟨"a", "en", "post", none, [("title", JSVal.str "x"), ("opt", JSVal.undefined)]⟩]
    ["X1"] "post" rfl (by decide) (by decide) (by decide) (by decide)

/-- C3, counterexample.  The update-detection comparison is *not*
reflexive and does *not* ignore `undefined`-valued fields on the hit
side: a document whose `x` field is `undefined` compares unequal to
itself, and a snapshot hit carrying `{x: undefined}` drives the matching
(otherwise identical) entry into `updated`. -/
theorem c3_counterexample :
    docEqualUsed ⟨"a", "en", "post", some "X1", [("x", JSVal.undefined)]⟩
        ⟨"a", "en", "post", some "X1", [("x", JSVal.undefined)]⟩ = false ∧
      (getElementsPromise [⟨"a", "en", "post", some "X1", []⟩]
          [⟨"a", "en", "post", some "X1", [("x", JSVal.undefined)]⟩]
          (some "post")).updated =
        [⟨"a", "en", "post", some "X1", []⟩] := by
  constructor
  · decide
  · decide

/-- C3, amended.  The comparison ignores `undefined`-valued fields on the
*entry* (source-document) side only: compacting the entry never changes
the verdict, and the comparison is reflexive on documents free of
`undefined`-valued fields (in particular on every hit that came from the
index, JSON having no `undefined`). -/
theorem c3_amended :
    (∀ e h : Doc, docEqualUsed (compactDoc e) h = docEqualUsed e h) ∧
      (∀ d : Doc, (∀ kv ∈ d.fields, kv.2 ≠ JSVal.undefined) →
        docEqualUsed d d = true) := by
  constructor
  · exact docEqualUsed_compact_entry
  · intro d hclean
    unfold docEqualUsed
    have hfe : d.fields.filter (fun kv => kv.2 ≠ JSVal.undefined) = d.fields := by
      apply List.filter_eq_self.2
      intro kv hkv
      simpa using hclean kv hkv
    have hc : compactDoc d = d := by
      unfold compactDoc
      rw [hfe]
    rw [hc, isEqualDoc_refl]

/-- C3, amended, witness. -/
theorem c3_amended_witness :
    docEqualUsed (compactDoc ⟨"a", "en", "post", none, [("x", JSVal.undefined)]⟩)
        ⟨"a", "en", "post", none, []⟩ =
      docEqualUsed ⟨"a", "en", "post", none, [("x", JSVal.undefined)]⟩
        ⟨"a", "en", "post", none, []⟩ ∧
    docEqualUsed ⟨"b", "de", "post", some "Y", [("t", JSVal.str "v")]⟩
        ⟨"b", "de", "post", some "Y", [("t", JSVal.str "v")]⟩ = true :=
  ⟨c3_amended.1 ⟨"a", "en", "post", none, [("x", JSVal.undefined)]⟩
      ⟨"a", "en", "post", none, []⟩,
    c3_amended.2 ⟨"b", "de", "post", some "Y", [("t", JSVal.str "v")]⟩
      (by decide)⟩

/-- C4, counterexample.  `getEntryKey` hashes the concatenation of `id`
and `locale`, so the entry `(id "ab", locale "c")` and the hit
`(id "a", locale "bc")` share one key.  The locale guard then blocks the
`objectID` copy, the comparison fails, and the very same document lands
in `created` *and* in `updated`: the groupings are not disjoint. -/
theorem c4_counterexample :
    getElementsPromise [⟨"ab", "c", "post", none, []⟩]
        [⟨"a", "bc", "post", some "X1", []⟩] (some "post") =
      ⟨[⟨"ab", "c", "post", none, []⟩], [⟨"ab", "c", "post", none, []⟩], []⟩ := by
  decide

/-- C4, amended.  When the `(id, locale)` key concatenation is
unambiguous between the documents and the snapshot (every key match is a
locale match), the snapshot's `objectID`s are truthy (non-empty, as
Algolia guarantees) and pairwise distinct, the three groupings are
pairwise disjoint: no document of `updated` appears in `created`, and no
identifier in `deleted` equals the `objectID` of any document of
`created` or `updated`. -/
theorem c4_amended (data hits : List Doc) (ct : Option String)
    (hamb : ∀ d ∈ data, ∀ h ∈ hits,
      getEntryKey d = getEntryKey h → d.locale = h.locale)
    (htr : ∀ h ∈ hits, jsTruthyStr h.objectID = true)
    (hnd : (hits.map (fun h => h.objectID)).Nodup) :
    (∀ d ∈ (getElementsPromise data hits ct).updated,
        d ∉ (getElementsPromise data hits ct).created) ∧
      (∀ o ∈ (getElementsPromise data hits ct).deleted,
        (∀ d ∈ (getElementsPromise data hits ct).created, d.objectID ≠ o) ∧
          (∀ d ∈ (getElementsPromise data hits ct).updated, d.objectID ≠ o)) := by
  have hsubl : List.Sublist
      (if jsTruthyStr ct then hits.filter (fun h => h.contentType == ct.getD "")
        else hits) hits := by
    by_cases hct : jsTruthyStr ct = true
    · rw [if_pos hct]
      exact List.filter_sublist hits
    · rw [if_neg hct]
  have hsub : ∀ h ∈ (if jsTruthyStr ct then
      hits.filter (fun h => h.contentType == ct.getD "") else hits), h ∈ hits :=
    fun h hh => hsubl.mem hh
  have hndF : ((if jsTruthyStr ct then
      hits.filter (fun h => h.contentType == ct.getD "") else hits).map
        (fun h => h.objectID)).Nodup :=
    hnd.sublist (hsubl.map _)
  obtain ⟨m0, m4, m1, m2⟩ := procHits_props
    (if jsTruthyStr ct then hits.filter (fun h => h.contentType == ct.getD "")
      else hits) data (jsTruthyStr ct)
    (fun d hd h hh hk => hamb d hd h (hsub h hh) hk)
    (fun h hh => htr h (hsub h hh))
  simp only [getElementsPromise]
  constructor
  · intro d hdu hdc
    rcases List.mem_filterMap.1 hdu with ⟨k, hk, hkb⟩
    have htru := (m1 k hk d hkb).1
    have hfc := (List.mem_filter.1 hdc).2
    rw [htru] at hfc
    simp at hfc
  · intro o ho
    rcases m2 o ho with ⟨hdel, hdelmem, hoid, hno⟩
    constructor
    · intro d hdc hdo
      have h1 := (List.mem_filter.1 hdc).2
      have h2 : jsTruthyStr d.objectID = true := by
        rw [hdo, hoid]
        exact htr _ (hsub _ hdelmem)
      rw [h2] at h1
      simp at h1
    · intro d hdu hdo
      rcases List.mem_filterMap.1 hdu with ⟨k, hk, hkb⟩
      rcases (m1 k hk d hkb).2 with ⟨h, hh, hoid2, d0, hd0, hk0⟩
      have heqoid : h.objectID = hdel.objectID := by
        rw [← hoid2, hdo, hoid]
      have hhe : h = hdel :=
        List.inj_on_of_nodup_map hndF hh hdelmem heqoid
      exact hno d0 hd0 (by rw [hk0, hhe])

/-- C4, amended, witness. -/
theorem c4_amended_witness :
    (∀ d ∈ (getElementsPromise
        [⟨"a", "en", "post", none, []⟩, ⟨"b", "en", "post", none, []⟩]
        [⟨"a", "en", "post", some "X1", [("t", JSVal.str "v")]⟩,
          ⟨"c", "en", "post", some "X2", []⟩] (some "post")).updated,
      d ∉ (getElementsPromise
        [⟨"a", "en", "post", none, []⟩, ⟨"b", "en", "post", none, []⟩]
        [⟨"a", "en", "post", some "X1", [("t", JSVal.str "v")]⟩,
          ⟨"c", "en", "post", some "X2", []⟩] (some "post")).created) ∧
      (∀ o ∈ (getElementsPromise
        [⟨"a", "en", "post", none, []⟩, ⟨"b", "en", "post", none, []⟩]
        [⟨"a", "en", "post", some "X1", [("t", JSVal.str "v")]⟩,
          ⟨"c", "en", "post", some "X2", []⟩] (some "post")).deleted,
        (∀ d ∈ (getElementsPromise
          [⟨"a", "en", "post", none, []⟩, ⟨"b", "en", "post", none, []⟩]
          [⟨"a", "en", "post", some "X1", [("t", JSVal.str "v")]⟩,
            ⟨"c", "en", "post", some "X2", []⟩] (some "post")).created,
          d.objectID ≠ o) ∧
          (∀ d ∈ (getElementsPromise
            [⟨"a", "en", "post", none, []⟩, ⟨"b", "en", "post", none, []⟩]
            [⟨"a", "en", "post", some "X1", [("t", JSVal.str "v")]⟩,
              ⟨"c", "en", "post", some "X2", []⟩] (some "post")).updated,
            d.objectID ≠ o)) :=
  c4_amended
    [⟨"a", "en", "post", none, []⟩, ⟨"b", "en", "post", none, []⟩]
    [⟨"a", "en", "post", some "X1", [("t", JSVal.str "v")]⟩,
      ⟨"c", "en", "post", some "X2", []⟩]
    (some "post") (by decide) (by decide) (by decide)

/-- C5.  For a source record with an object `sys` envelope and an object
`fields` map (JSON well-formed, so with duplicate-free keys), flattening
against a configured locale specification of N non-empty groups produces
exactly N flat documents whose `locale` tags are the groups' first
codes; when those first codes are pairwise distinct the N tags are
distinct. -/
theorem c5_flatten_locale_counts (locales : List (List String)) (fuel : Nat)
    (l fs0 ss : List (String × CVal))
    (hfs : objGetD l "fields" = .obj fs0)
    (hnd0 : (fs0.map Prod.fst).Nodup)
    (hsys : objGetD l "sys" = .obj ss)
    (hne : ∀ g ∈ locales, g ≠ []) :
    (getLocalizedEntries (some locales) fuel (.obj l)).length = locales.length ∧
      (getLocalizedEntries (some locales) fuel (.obj l)).map
          (fun doc => cvalIndex doc "locale") =
        locales.map (fun g => .str (g.headD "")) ∧
      ((locales.map fun g => g.headD "").Nodup →
        ((getLocalizedEntries (some locales) fuel (.obj l)).map
          (fun doc => cvalIndex doc "locale")).Nodup) := by
  obtain ⟨fsC, hfC, hndC⟩ := cleanEntry_ret_fields locales l fs0 ss hfs hsys
  have hndC2 : objKeysNodup
      (cvalIndex ((cleanEntry locales (.obj l) false).1) "fields") := by
    rw [hfC]
    exact hndC hnd0
  have hper : ∀ g ∈ locales,
      cvalIndex (localizeOne locales fuel ((cleanEntry locales (.obj l) false).1) g)
          "locale" = .str (g.headD "") := by
    intro g hg
    cases g with
    | nil => exact absurd rfl (hne [] hg)
    | cons c rest => exact localizeOne_locale locales fuel _ c rest hndC2
  have hmapeq : (getLocalizedEntries (some locales) fuel (.obj l)).map
      (fun doc => cvalIndex doc "locale") =
      locales.map (fun g => CVal.str (g.headD "")) := by
    show (locales.map
        (localizeOne locales fuel ((cleanEntry locales (.obj l) false).1))).map
        (fun doc => cvalIndex doc "locale") = _
    rw [List.map_map]
    exact List.map_congr_left hper
  refine ⟨?_, hmapeq, ?_⟩
  · show (locales.map
        (localizeOne locales fuel ((cleanEntry locales (.obj l) false).1))).length = _
    exact List.length_map _ _
  · intro hheads
    rw [hmapeq]
    have hcomp : locales.map (fun g => CVal.str (g.headD "")) =
        (locales.map (fun g => g.headD "")).map CVal.str := by
      rw [List.map_map]
      rfl
    rw [hcomp]
    exact hheads.map (fun a b hab => by injection hab)

/-- C5, witness. -/
theorem c5_flatten_locale_counts_witness :
    (getLocalizedEntries (some [["en-US", "en"], ["de-DE", "de"]]) 9
        (.obj [("sys", .obj [("id", .str "e1"), ("type", .str "Entry"),
            ("revision", .num 2), ("createdAt", .str "t1"),
            ("space", .obj [("sys", .obj [("id", .str "sp")])]),
            ("contentType", .obj [("sys", .obj [("id", .str "post")])])]),
          ("fields", .obj [("title",
            .obj [("en-US", .str "Hello"), ("de-DE", .str "Hallo")])])])).length =
      ([["en-US", "en"], ["de-DE", "de"]] : List (List String)).length ∧
      (getLocalizedEntries (some [["en-US", "en"], ["de-DE", "de"]]) 9
        (.obj [("sys", .obj [("id", .str "e1"), ("type", .str "Entry"),
            ("revision", .num 2), ("createdAt", .str "t1"),
            ("space", .obj [("sys", .obj [("id", .str "sp")])]),
            ("contentType", .obj [("sys", .obj [("id", .str "post")])])]),
          ("fields", .obj [("title",
            .obj [("en-US", .str "Hello"), ("de-DE", .str "Hallo")])])])).map
          (fun doc => cvalIndex doc "locale") =
        ([["en-US", "en"], ["de-DE", "de"]] : List (List String)).map
          (fun g => .str (g.headD "")) ∧
      ((([["en-US", "en"], ["de-DE", "de"]] : List (List String)).map
          fun g => g.headD "").Nodup →
        ((getLocalizedEntries (some [["en-US", "en"], ["de-DE", "de"]]) 9
          (.obj [("sys", .obj [("id", .str "e1"), ("type", .str "Entry"),
              ("revision", .num 2), ("createdAt", .str "t1"),
              ("space", .obj [("sys", .obj [("id", .str "sp")])]),
              ("contentType", .obj [("sys", .obj [("id", .str "post")])])]),
            ("fields", .obj [("title",
              .obj [("en-US", .str "Hello"), ("de-DE", .str "Hallo")])])])).map
          (fun doc => cvalIndex doc "locale")).Nodup) :=
  c5_flatten_locale_counts [["en-US", "en"], ["de-DE", "de"]] 9
    [("sys", .obj [("id", .str "e1"), ("type", .str "Entry"),
        ("revision", .num 2), ("createdAt", .str "t1"),
        ("space", .obj [("sys", .obj [("id", .str "sp")])]),
        ("contentType", .obj [("sys", .obj [("id", .str "post")])])]),
      ("fields", .obj [("title",
        .obj [("en-US", .str "Hello"), ("de-DE", .str "Hallo")])])]
    [("title", .obj [("en-US", .str "Hello"), ("de-DE", .str "Hallo")])]
    [("id", .str "e1"), ("type", .str "Entry"), ("revision", .num 2),
      ("createdAt", .str "t1"),
      ("space", .obj [("sys", .obj [("id", .str "sp")])]),
      ("contentType", .obj [("sys", .obj [("id", .str "post")])])]
    rfl (by decide) rfl (by decide)

/-- C10, counterexample.  The in-place mutation is not limited to the
enumerated changes: in the non-full path the returned envelope *is*
`entry.sys`, so `newEntry.fields = entry.fields` plants a `fields` entry
inside the caller's `sys` envelope — the record below starts with no
`sys.fields`, and after `_cleanEntry` its `sys` carries one (aliasing
the record's fields object, including the injected `contentType`). -/
theorem c10_counterexample :
    cvalIndex (cvalIndex
        (.obj [("sys", .obj [("id", .str "e1"), ("revision", .num 2)]),
          ("fields", .obj [("title", .obj [("en", .str "Hi")])])]) "sys")
        "fields" = .undefined ∧
      cvalIndex (cvalIndex
        ((cleanEntry [["en"]]
          (.obj [("sys", .obj [("id", .str "e1"), ("revision", .num 2)]),
            ("fields", .obj [("title", .obj [("en", .str "Hi")])])]) false).2)
          "sys") "fields" =
        .obj [("title", .obj [("en", .str "Hi")]),
          ("contentType", .obj [("en", .boolean false)])] :=
  ⟨rfl, rfl⟩

/-- C10, amended.  For a record with a truthy `sys`, the argument
`_cleanEntry` mutates is exactly described by `specCleanEntryMutation`:
`sys` loses the four bookkeeping entries (or is deleted entirely under
full cleaning), `sys` additionally gains a `fields` entry in the
non-full path, and the fields object gains the locale-keyed
`contentType` map when it lacks a truthy one — and nothing else
changes. -/
theorem c10_cleanEntry_mutation (locales : List (List String))
    (l : List (String × CVal)) (hsys : jsTruthy (objGetD l "sys") = true)
    (full : Bool) :
    (cleanEntry locales (.obj l) full).2 =
      specCleanEntryMutation locales (.obj l) full := by
  have hob : jsTruthy (CVal.obj l) = true := rfl
  unfold cleanEntry specCleanEntryMutation
  simp only [cvalIndex, hob, hsys, Bool.true_eq_false, Bool.true_and, if_false,
    ite_false, if_true, ite_true]
  cases full <;> rfl

/-- C10, amended, witness. -/
theorem c10_cleanEntry_mutation_witness :
    (cleanEntry [["en"]]
        (.obj [("sys", .obj [("id", .str "e1"), ("revision", .num 2)]),
          ("fields", .obj [("title", .obj [("en", .str "Hi")])])]) false).2 =
      specCleanEntryMutation [["en"]]
        (.obj [("sys", .obj [("id", .str "e1"), ("revision", .num 2)]),
          ("fields", .obj [("title", .obj [("en", .str "Hi")])])]) false :=
  c10_cleanEntry_mutation [["en"]]
    [("sys", .obj [("id", .str "e1"), ("revision", .num 2)]),
      ("fields", .obj [("title", .obj [("en", .str "Hi")])])]
    rfl false

/-- C6, counterexample.  Locale resolution keeps the first *truthy*
value, not the first defined one: with group `["a", "b"]` and a field
defined at both codes (`""` at `a`, `"x"` at `b`) the resolved value is
the value at `b`. -/
theorem c6_counterexample :
    cvalIndex (.obj [("a", .str ""), ("b", .str "x")]) "a" = .str "" ∧
      getLocaleString (.obj [("a", .str ""), ("b", .str "x")]) ["a", "b"] =
        .str "x" :=
  ⟨rfl, rfl⟩

theorem getLocaleString_foldl_keep (field : CVal) (codes : List String)
    (acc : CVal) (hacc : jsTruthy acc = true) :
    codes.foldl
        (fun acc c =>
          if jsTruthy (cvalIndex field c) && !(jsTruthy acc) then cvalIndex field c
          else acc)
        acc = acc := by
  induction codes with
  | nil => rfl
  | cons c cs ih =>
      rw [List.foldl_cons, if_neg (by simp [hacc])]
      exact ih

/-- C6, amended.  Resolution within a group is first-*truthy*-wins: when
the value at the group's first code is truthy it is the resolved value
(a falsy but defined value at the first code is skipped in favour of a
later code, as the counterexample shows). -/
theorem c6_amended (field : CVal) (a : String) (rest : List String)
    (ha : jsTruthy (cvalIndex field a) = true) :
    getLocaleString field (a :: rest) = cvalIndex field a := by
  unfold getLocaleString
  rw [List.foldl_cons, if_pos (by rw [ha]; rfl)]
  exact getLocaleString_foldl_keep field rest _ ha

/-- C6, amended, witness. -/
theorem c6_amended_witness :
    jsTruthy (cvalIndex (.obj [("a", .str "va"), ("b", .str "x")]) "a") = true ∧
      getLocaleString (.obj [("a", .str "va"), ("b", .str "x")]) ["a", "b"] =
        cvalIndex (.obj [("a", .str "va"), ("b", .str "x")]) "a" :=
  ⟨rfl, c6_amended (.obj [("a", .str "va"), ("b", .str "x")]) "a" ["b"] rfl⟩

/-- C7.  The cycle guard is inverted: `_.indexOf(cleanStack, entry)`
returns `-1` when `entry` is *not* on the stack, and `-1` is truthy, so
`_cleanMore` returns its argument unchanged whenever the lookup is
non-zero — in particular for *every* entry on the empty stack every call
site passes.  Unvisited entries are never descended into; the traversal
"terminates" only because it does nothing. -/
theorem c7_cleanMore_guard_inverted (locales : List (List String))
    (fuel : Nat) (entry : CVal) (group : List String) (stack : List CVal)
    (h : jsIndexOf stack entry ≠ 0) :
    cleanMore locales fuel entry group stack = entry :=
  cleanMore_skip locales fuel entry group stack h

/-- C7, witness: a record with a nested `sys`-bearing linked entry — the
input the cleaning pass exists for — is returned untouched from the
public entry point (empty stack). -/
theorem c7_cleanMore_guard_inverted_witness :
    cleanMore [["en"]] 5
        (.obj [("a", .obj [("sys", .obj [("id", .str "n1")]),
          ("fields", .obj [("t", .obj [("en", .str "x")])])])])
        ["en"] [] =
      .obj [("a", .obj [("sys", .obj [("id", .str "n1")]),
        ("fields", .obj [("t", .obj [("en", .str "x")])])])] :=
  c7_cleanMore_guard_inverted [["en"]] 5 _ ["en"] [] (by decide)

/-- C8.  Paged fetching: starting from offset 0, the resolved sequence is
exactly the backend's full record list (all pages concatenated in
order), and an offset is requested iff it is 0 or a positive multiple of
the page size (1000) below the total — i.e. a further page is requested
exactly while `offset + 1000 < total`. -/
theorem c8_paged_fetch {α : Type} (backend : List α) :
    getEntriesPaged backend 0 [] = backend ∧
      ∀ o : Nat, o ∈ (getEntriesPagedTrace backend 0 []).1 ↔
        (o = 0 ∨ (0 < o ∧ o % 1000 = 0 ∧ o < backend.length)) := by
  constructor
  · unfold getEntriesPaged
    rw [getEntriesPagedTrace_snd backend.length backend 0 [] (by omega)]
    simp
  · intro o
    have := getEntriesPagedTrace_fst (α := α) backend.length backend 0 [] o (by omega)
    simpa using this

/-- C8, witness. -/
theorem c8_paged_fetch_witness :
    getEntriesPaged (List.range 3) 0 [] = List.range 3 ∧
      (0 ∈ (getEntriesPagedTrace (List.range 3) 0 []).1 ↔
        (0 = 0 ∨ (0 < 0 ∧ 0 % 1000 = 0 ∧ 0 < (List.range 3).length))) :=
  ⟨(c8_paged_fetch (List.range 3)).1, (c8_paged_fetch (List.range 3)).2 0⟩

/-- C9, counterexample.  A failing index full-scan does *not* surface as
a rejection of `indexData`'s promise: `.catch(console.error)` swallows it
and the promise resolves with `undefined`. -/
theorem c9_counterexample :
    indexData (.error "scan failed") [] (some "post") false
        (fun _ => .ok []) (fun _ => .ok []) (fun _ => .ok []) =
      .resolved none := rfl

/-- C9, amended.  Every collaborator failure (source fetch, index
full-scan, batch write) is caught and logged inside
`indexData`/`syncSingle`: the promises returned by the public operations
always resolve (with `undefined` in the failure case); no failure is
observable as a rejection. -/
theorem c9_amended (fetch scan : Except String (List Doc))
    (data : List Doc) (contentType : Option String) (isSingle : Bool)
    (netAdd netUpd : List Doc → Except String (List String))
    (netDel : List (Option String) → Except String (List String)) :
    (indexData scan data contentType isSingle netAdd netUpd netDel).isResolved
        = true ∧
      (syncSingle fetch scan contentType isSingle netAdd netUpd netDel).isResolved
        = true := by
  constructor
  · rfl
  · unfold syncSingle
    cases fetch with
    | error e => rfl
    | ok content =>
        unfold indexData
        rfl

end C2A
